import Mathlib

/-! Record ordering and file rewriting in `main.c`

A shallow embedding of the comparison, sorting, order-detection and
insertion-point code of the flat-file record manager, of the text it stores and
of the four operations that rewrite a file, and theorems about them.

Conventions of the embedding

* `record **data, int size` is a `List record`; `size` is its length.
* `char region_name[]` is the list of bytes stored in the buffer before the
  terminating NUL (bytes are natural numbers, compared as `unsigned char`).
  `strcmp` still stops at a zero byte, as the C function does.
* `double` is `Double`: NaN, the two infinities, or a finite value (a rational;
  `-0.0` and `0.0` are the same value, as they are for `<` and `>`). The type
  holds every rational; the values a C `double` takes are the binary64 ones,
  and a number read from a file is rounded to the nearest of them
  (`nearest_double`).
* `int` values are `Int`; the comparison results used here are in `{-1,0,1}`
  or byte differences, so no wrap-around occurs.
* Strings and file contents are lists of bytes. The files of the working
  folder are a map from paths to contents; an operation takes the files and
  the answers of the outside world (the key pressed in a selection loop, the
  record typed in, whether `fopen` and `rename` succeed) and returns the
  `FILE *` it returns in C, the files afterwards and the list of its effects.
* `fprintf` and `fscanf` are modelled for the conversions and the texts this
  program uses; what is left out is said at each definition.
* Keyboard input is the list of bytes still to come from `getchar`; a
  selection loop is a function of the keys pressed.
-/

namespace Records

/-! ## Data model -/

/-- The C `double`, as far as `<` and `>` observe it. -/
inductive Double where
  | nan : Double
  | ninf : Double
  | fin (q : ℚ) : Double
  | pinf : Double
  deriving DecidableEq

/-- The C operator `<` on `double`: false as soon as an operand is NaN. -/
def Double.lt : Double → Double → Bool
  | .nan, _ => false
  | _, .nan => false
  | .ninf, .ninf => false
  | .ninf, _ => true
  | .fin _, .ninf => false
  | .fin a, .fin b => decide (a < b)
  | .fin _, .pinf => true
  | .pinf, _ => false

/-- The C operator `>` on `double`. -/
def Double.gt (a b : Double) : Bool := Double.lt b a

/-- The enumeration `enum sort_option`, with its counting sentinel. -/
inductive sort_option where
  | NAME_SORT
  | AREA_SORT
  | POPULATION_SORT
  | NUMBER_OF_SORTS
  deriving DecidableEq, Repr

/-- The enumeration `enum order_option`, with its counting sentinel. -/
inductive order_option where
  | DESCENDING_ORDER
  | ASCENDING_ORDER
  | NUMBER_OF_ORDERS
  deriving DecidableEq, Repr

open sort_option order_option

/-- The integer value of a `sort_option` enumerator. -/
def sort_option.toNat : sort_option → Nat
  | NAME_SORT => 0
  | AREA_SORT => 1
  | POPULATION_SORT => 2
  | NUMBER_OF_SORTS => 3

/-- The integer value of an `order_option` enumerator. -/
def order_option.toNat : order_option → Nat
  | DESCENDING_ORDER => 0
  | ASCENDING_ORDER => 1
  | NUMBER_OF_ORDERS => 2

/-- The `sort_option` a loop counter converts to (`sort` in `check_sort_order`). -/
def sort_option.cast : Nat → sort_option
  | 0 => NAME_SORT
  | 1 => AREA_SORT
  | 2 => POPULATION_SORT
  | _ => NUMBER_OF_SORTS

/-- The `order_option` a loop counter converts to (`order` in `check_sort_order`). -/
def order_option.cast : Nat → order_option
  | 0 => DESCENDING_ORDER
  | 1 => ASCENDING_ORDER
  | _ => NUMBER_OF_ORDERS

/-- The struct `record`. -/
structure record where
  region_name : List Nat
  region_area : Double
  region_population : Int
  deriving DecidableEq

/-! ## Comparator -/

/-- The C library `strcmp`: the difference of the first pair of differing
bytes (a buffer that has ended contributes the NUL byte), and `0` when both
strings stop together. -/
def strcmp : List Nat → List Nat → Int
  | [], [] => 0
  | [], b :: _ => 0 - (b : Int)
  | a :: _, [] => (a : Int) - 0
  | a :: as, b :: bs =>
    if a = b then (if a = 0 then 0 else strcmp as bs) else (a : Int) - (b : Int)

/-- A C truth value as an `int`. -/
def boolToInt (b : Bool) : Int := if b then 1 else 0

/-- Source: `compare_records`. -/
def compare_records (record1 record2 : record)
    (sort_option : sort_option) (order_option : order_option) : Int :=
  let result : Int :=
    match sort_option with
    | NAME_SORT => strcmp record1.region_name record2.region_name
    | AREA_SORT =>
      boolToInt (Double.gt record1.region_area record2.region_area) -
        boolToInt (Double.lt record1.region_area record2.region_area)
    | POPULATION_SORT =>
      boolToInt (decide (record1.region_population > record2.region_population)) -
        boolToInt (decide (record1.region_population < record2.region_population))
    | NUMBER_OF_SORTS => 0
  if order_option = ASCENDING_ORDER then result else -result

/-- Source: `find_insert_position`. The list is scanned from the front; the
counter is incremented for every element that does not trigger the `break`. -/
def find_insert_position : List record → record → sort_option → order_option → Nat
  | [], _, _, _ => 0
  | d :: rest, new_record, sorting_option, ordering_option =>
    let comparison_result := compare_records d new_record sorting_option ordering_option
    if (ordering_option = ASCENDING_ORDER ∧ comparison_result > 0) ∨
        (ordering_option = DESCENDING_ORDER ∧ comparison_result < 0) then 0
    else find_insert_position rest new_record sorting_option ordering_option + 1

/-! ## Sorter -/

/-- Source: `swap_records`, applied to the slots `data[i]` and `data[j]`. -/
def swap_records (data : List record) (i j : Nat) : List record :=
  match data[i]?, data[j]? with
  | some a, some b => (data.set i b).set j a
  | _, _ => data

/-- One iteration of the inner loop body of `sort_records` at index `j`. -/
def sort_step (sort_option : sort_option) (order_option : order_option)
    (data : List record) (j : Nat) : List record :=
  match data[j]?, data[j + 1]? with
  | some a, some b =>
    if compare_records a b sort_option order_option > 0 then swap_records data j (j + 1)
    else data
  | _, _ => data

/-- The inner loop of `sort_records`, `for (j = ...; j < size - i - 1; j++)`:
the last argument is the number of iterations that remain. -/
def sort_inner (sort_option : sort_option) (order_option : order_option) :
    List record → Nat → Nat → List record
  | data, _, 0 => data
  | data, j, n + 1 =>
    sort_inner sort_option order_option (sort_step sort_option order_option data j) (j + 1) n

/-- The outer loop of `sort_records`, `for (i = ...; i < size - 1; i++)`:
the last argument is the number of iterations that remain. -/
def sort_outer (sort_option : sort_option) (order_option : order_option) (size : Nat) :
    List record → Nat → Nat → List record
  | data, _, 0 => data
  | data, i, n + 1 =>
    sort_outer sort_option order_option size
      (sort_inner sort_option order_option data 0 (size - i - 1)) (i + 1) n

/-- Source: `sort_records` (the array after the call). -/
def sort_records (data : List record) (sort_option : sort_option)
    (order_option : order_option) : List record :=
  sort_outer sort_option order_option data.length data 0 (data.length - 1)

/-! ## Order detector -/

/-- Source: `is_sorted`: no adjacent pair compares greater than zero. -/
def is_sorted : List record → sort_option → order_option → Bool
  | a :: b :: rest, sort, order =>
    if compare_records a b sort order > 0 then false else is_sorted (b :: rest) sort order
  | _, _, _ => true

/-- Source: `check_sort_order`. The two out-parameters and the boolean result
are one optional pair: `none` is `return false`. -/
def check_sort_order (data : List record) : Option (sort_option × order_option) :=
  (List.range NUMBER_OF_SORTS.toNat).findSome? fun sort =>
    (List.range NUMBER_OF_ORDERS.toNat).findSome? fun order =>
      if is_sorted data (sort_option.cast sort) (order_option.cast order) then
        some (sort_option.cast sort, order_option.cast order)
      else none


/-! ## Reference notions of the specification -/

/-- The string a name buffer holds: its bytes up to the first NUL. -/
def cstr (buf : List Nat) : List Nat := buf.takeWhile (fun c => c != 0)

/-- Specification: "key of `a` is less than key of `b`" for the three sort keys:
byte-wise lexicographic order on names, numeric order on areas and populations.
The counting sentinel is not a key and relates nothing. -/
def key_lt : sort_option → record → record → Bool
  | NAME_SORT, a, b => decide (cstr a.region_name < cstr b.region_name)
  | AREA_SORT, a, b => Double.lt a.region_area b.region_area
  | POPULATION_SORT, a, b => decide (a.region_population < b.region_population)
  | NUMBER_OF_SORTS, _, _ => false

/-- Specification: "key of `a` equals key of `b`" for the three sort keys. -/
def key_eq : sort_option → record → record → Bool
  | NAME_SORT, a, b => decide (cstr a.region_name = cstr b.region_name)
  | AREA_SORT, a, b => decide (a.region_area = b.region_area)
  | POPULATION_SORT, a, b => decide (a.region_population = b.region_population)
  | NUMBER_OF_SORTS, _, _ => false

/-- Specification: the fixed enumeration order of the order detector, key
outer (name, area, population), direction inner (descending before ascending). -/
def candidates : List (sort_option × order_option) :=
  [(NAME_SORT, DESCENDING_ORDER), (NAME_SORT, ASCENDING_ORDER),
   (AREA_SORT, DESCENDING_ORDER), (AREA_SORT, ASCENDING_ORDER),
   (POPULATION_SORT, DESCENDING_ORDER), (POPULATION_SORT, ASCENDING_ORDER)]

/-- The records on which the area comparison answers `0` against everything. -/
def area_barrier (sort_option : sort_option) (r : record) : Prop :=
  sort_option = AREA_SORT ∧ r.region_area = Double.nan

/-! ## Sample data of the specification's scenarios -/

/-- The record `("Alpha", 10.0, 5)`. -/
def alpha : record := ⟨[65, 108, 112, 104, 97], .fin 10, 5⟩

/-- The record `("Beta", 2.0, 100)`. -/
def beta : record := ⟨[66, 101, 116, 97], .fin 2, 100⟩

/-- A record whose area is NaN (the text `nan` is accepted by `scanf("%lf")`,
and `is_correct_area` rejects neither `nan > max` nor `nan < min`). -/
def gamma : record := ⟨[71], .nan, 7⟩

/-- The record `("Delta", 2.0, 50)`: same area as `beta`. -/
def delta : record := ⟨[68, 101, 108, 116, 97], .fin 2, 50⟩

/-! ## Bubble passes on lists -/

section PassDefs

variable {α : Type} (cmp : α → α → Int)

/-- A bubble pass: `k` compare-and-swap steps walking down a list from its head. -/
def pass : Nat → List α → List α
  | k + 1, x :: y :: rest =>
    if cmp x y > 0 then y :: pass k (x :: rest) else x :: pass k (y :: rest)
  | _, l => l

/-- Passes of decreasing length `n, n-1, ..., 1`. -/
def bsort : Nat → List α → List α
  | 0, l => l
  | n + 1, l => bsort n (pass cmp (n + 1) l)

/-- A full pass carrying `x` through `r`: the elements left behind and the
element that arrives at the end. -/
def bub : α → List α → List α × α
  | x, [] => ([], x)
  | x, y :: r =>
    if cmp x y > 0 then (y :: (bub x r).1, (bub x r).2) else (x :: (bub y r).1, (bub y r).2)

/-- What bubble passes need from a comparator: elements satisfying `B`
("barriers") compare as equal to everything, and `≤ 0` is transitive through every
element that is not a barrier. -/
structure BarrierOrder (B : α → Prop) : Prop where
  asym : ∀ a b, 0 < cmp a b → cmp b a ≤ 0
  bar : ∀ a b, B a → cmp a b ≤ 0 ∧ cmp b a ≤ 0
  trans : ∀ a b c, ¬ B b → cmp a b ≤ 0 → cmp b c ≤ 0 → cmp a c ≤ 0

/-- Domination: `h` is not below any element of the list that has no barrier
after it. -/
def Dom (B : α → Prop) (h : α) : List α → Prop
  | [] => True
  | x :: r => ((∀ b ∈ r, ¬ B b) → cmp x h ≤ 0) ∧ Dom B h r

end PassDefs

/-! ## Insertion: the write loop of `insert_record` -/

/-- Source: the write loop of `insert_record` together with the test after it:
the sequence of records passed to `write_record`, for the loop counter starting
at `i` on the records not yet visited. -/
def insert_loop : List record → Nat → Nat → record → List record
  | [], i, insert_position, input_data =>
    if i = insert_position then [input_data] else []
  | d :: rest, i, insert_position, input_data =>
    if i = insert_position then
      input_data :: d :: insert_loop rest (i + 1) insert_position input_data
    else d :: insert_loop rest (i + 1) insert_position input_data

/-! ## File paths -/

/-- Source: `FILENAME_SIZE`. -/
def FILENAME_SIZE : Nat := 11

/-- Source: `REGION_NAME_MAX`. -/
def REGION_NAME_MAX : Nat := 21

/-- Source: `working_folder`, the string `"./files"`. -/
def working_folder : List Nat := [46, 47, 102, 105, 108, 101, 115]

/-- The string `"temp.txt"`. -/
def temp_txt : List Nat := [116, 101, 109, 112, 46, 116, 120, 116]

/-- The string `".txt"`. -/
def dot_txt : List Nat := [46, 116, 120, 116]

/-- The C library `snprintf(buf, size, ...)`: the string left in the buffer is
the formatted text cut to `size - 1` bytes. -/
def snprintf (size : Nat) (text : List Nat) : List Nat := text.take (size - 1)

/-- Source: the size of every `filepath` and `temp_filepath` buffer,
`FILENAME_SIZE + strlen(working_folder) + 2`. -/
def filepath_size : Nat := FILENAME_SIZE + working_folder.length + 2

/-- Source: `temp_filepath` in `delete_record`, `edit_record`, `order_records`
and `insert_record`: `snprintf(..., "%s/%s", working_folder, "temp.txt")`. -/
def temp_filepath : List Nat := snprintf filepath_size (working_folder ++ 47 :: temp_txt)

/-- Source: `filepath` in `open_file` and in the four rewriting operations:
`snprintf(..., "%s/%s", working_folder, working_file_name)`. -/
def record_filepath (working_file_name : List Nat) : List Nat :=
  snprintf filepath_size (working_folder ++ 47 :: cstr working_file_name)

/-- Source: `filepath` in `create_file`:
`snprintf(..., "%s/%s.txt", working_folder, filename)`. -/
def create_filepath (filename : List Nat) : List Nat :=
  snprintf filepath_size (working_folder ++ 47 :: (cstr filename ++ dot_txt))

/-- Source: `invalid_chars` in `is_valid_filename`, the string `\/:*?"<>|`. -/
def invalid_chars : List Nat := [92, 47, 58, 42, 63, 34, 60, 62, 124]

/-- Source: `is_valid_filename` (for a non-null pointer). -/
def is_valid_filename (filename : List Nat) : Bool :=
  let name := cstr filename
  if name.length = 0 then false
  else if name.head? = some 46 then false
  else if name.any (fun c => invalid_chars.any (fun bad => c = bad)) then false
  else if name.getLast? = some 32 then false
  else true

/-! ## Text of a record file: what `fprintf` writes -/

/-- The C library `isspace` in the "C" locale. -/
def isspace (c : Nat) : Bool := c = 32 || (9 ≤ c && c ≤ 13)

/-- The C library `isdigit`. -/
def isdigit (c : Nat) : Bool := 48 ≤ c && c ≤ 57

/-- Decimal digits of `n`, most significant first, in front of `acc`; the
first argument bounds the number of digits. -/
def dec_digits : Nat → Nat → List Nat → List Nat
  | 0, _, acc => acc
  | fuel + 1, n, acc =>
    if n < 10 then (48 + n) :: acc
    else dec_digits fuel (n / 10) ((48 + n % 10) :: acc)

/-- The decimal numeral of a natural number, as `printf` writes it. -/
def print_nat (n : Nat) : List Nat := dec_digits (n + 1) n []

/-- The conversion `%i` of `printf`. -/
def print_i (n : Int) : List Nat :=
  if n < 0 then 45 :: print_nat n.natAbs else print_nat n.natAbs

/-- The value `|q| * 10^6` rounded to the nearest integer, ties to even. -/
def round_micro (q : ℚ) : Nat :=
  let a := q.num.natAbs * 1000000
  let f := a / q.den
  let r := a % q.den
  if 2 * r > q.den ∨ (2 * r = q.den ∧ f % 2 = 1) then f + 1 else f

/-- Six decimal digits of `f`, zero padded. -/
def print_frac6 (f : Nat) : List Nat :=
  [48 + f / 100000 % 10, 48 + f / 10000 % 10, 48 + f / 1000 % 10,
   48 + f / 100 % 10, 48 + f / 10 % 10, 48 + f % 10]

/-- The conversion `%lf` of `printf`: fixed notation with six digits after the
decimal point, correctly rounded; `nan`, `inf` and `-inf` for the special
values. -/
def print_lf : Double → List Nat
  | .nan => [110, 97, 110]
  | .pinf => [105, 110, 102]
  | .ninf => [45, 105, 110, 102]
  | .fin q =>
    (if q < 0 then [45] else []) ++ print_nat (round_micro q / 1000000) ++
      46 :: print_frac6 (round_micro q % 1000000)

/-- The text `write_record` appends: `fprintf(file, "%s %lf %i\n", ...)`. -/
def record_line (data : record) : List Nat :=
  cstr data.region_name ++ 32 :: (print_lf data.region_area ++
    32 :: (print_i data.region_population ++ [10]))

/-- The text of a file to which the records were written in order. -/
def render (records : List record) : List Nat := records.flatMap record_line

/-! ## Text of a record file: what `fscanf` reads -/

/-- Value of a run of decimal digits. -/
def dec_value (ds : List Nat) : Nat := ds.foldl (fun v c => 10 * v + (c - 48)) 0

/-- The conversion `%s` of `fscanf`: white space is skipped, then the run of
bytes up to the next white space is read; `none` is the input failure at end of
file. -/
def scan_s (input : List Nat) : Option (List Nat × List Nat) :=
  match input.dropWhile isspace with
  | [] => none
  | c :: rest =>
    some ((c :: rest).takeWhile (fun b => !isspace b), (c :: rest).dropWhile (fun b => !isspace b))

/-- The number of binary digits of `n` (0 for 0); the first argument bounds
it. -/
def bit_length_fuel : Nat → Nat → Nat
  | 0, _ => 0
  | fuel + 1, n => if n = 0 then 0 else bit_length_fuel fuel (n / 2) + 1

/-- The number of binary digits of `n`: `2^(bit_length n - 1) ≤ n < 2^(bit_length n)`
for `n ≠ 0`. -/
def bit_length (n : Nat) : Nat := bit_length_fuel n n

/-- The quotient `n / d` rounded to the nearest integer, ties to even. -/
def div_round_even (n d : Nat) : Nat :=
  let f := n / d
  let r := n % d
  if 2 * r > d ∨ (2 * r = d ∧ f % 2 = 1) then f + 1 else f

/-- The binary exponent of the positive number `n / d`: the integer `e` with
`2^e ≤ n / d < 2^(e + 1)`. The difference of the bit lengths is `e` or `e + 1`;
the comparison `d * 2^e0 ≤ n` (written without negative powers) tells which. -/
def binary_exponent (n d : Nat) : Int :=
  let e0 : Int := (bit_length n : Int) - (bit_length d : Int)
  if d * 2 ^ e0.toNat ≤ n * 2 ^ (-e0).toNat then e0 else e0 - 1

/-- The `double` (IEEE 754 binary64) nearest to the number `n / d`, ties to the
even significand: what `strtod` and the conversion `%lf` of `fscanf` store for
a decimal numeral of that value. With `e` the binary exponent, not below the
least normal exponent -1022, the number is rounded to a multiple `m` of
`2^(e - 52)` (`s` is `52 - e`, and `m` is at most `2^53`); a result of `2^1024`
or more is the infinity. -/
def nearest_double (n d : Nat) : Double :=
  if n = 0 then .fin 0
  else
    let e := max (binary_exponent n d) (-1022)
    let s : Int := 52 - e
    let m := div_round_even (n * 2 ^ s.toNat) (d * 2 ^ (-s).toNat)
    if 1023 < e ∨ (e = 1023 ∧ 2 ^ 53 ≤ m) then .pinf
    else .fin (mkRat (m * 2 ^ (-s).toNat : Nat) (2 ^ s.toNat))

/-- An unsigned decimal `digits` or `digits.digits` at the head of the input:
the `double` nearest to the number written, and the rest of the input. -/
def scan_decimal (input : List Nat) : Option (Double × List Nat) :=
  let ip := input.takeWhile isdigit
  let rest := input.dropWhile isdigit
  match rest with
  | 46 :: rest1 =>
    let fp := rest1.takeWhile isdigit
    if ip = [] ∧ fp = [] then none
    else some (nearest_double (dec_value (ip ++ fp)) (10 ^ fp.length), rest1.dropWhile isdigit)
  | _ => if ip = [] then none else some (nearest_double (dec_value ip) 1, rest)

/-- Negation of a `double`. -/
def Double.neg : Double → Double
  | .nan => .nan
  | .ninf => .pinf
  | .fin q => .fin (-q)
  | .pinf => .ninf

/-- An unsigned `%lf` subject at the head of the input: `nan`, `inf` in lower
case, or a decimal, which is read as the nearest `double`. Exponents,
hexadecimal notation, upper case and `infinity` are not part of this model:
`fprintf` never writes them. -/
def scan_lf_unsigned (input : List Nat) : Option (Double × List Nat) :=
  match input with
  | 110 :: 97 :: 110 :: rest => some (.nan, rest)
  | 105 :: 110 :: 102 :: rest => some (.pinf, rest)
  | _ => scan_decimal input

/-- The conversion `%lf` of `fscanf` on input whose leading white space has
been skipped: the value and the rest of the input, `none` when the input does
not start with a number (or is at end of file). -/
def scan_lf (input : List Nat) : Option (Double × List Nat) :=
  match input with
  | 45 :: rest => (scan_lf_unsigned rest).map fun r => (Double.neg r.1, r.2)
  | 43 :: rest => scan_lf_unsigned rest
  | _ => scan_lf_unsigned input

/-- An unsigned decimal integer at the head of the input. Only decimal
numerals are modelled: a numeral with a leading zero or a `0x` mark, which `%i`
reads as octal or hexadecimal, is never written by `fprintf`. -/
def scan_i_unsigned (input : List Nat) : Option (Nat × List Nat) :=
  let ds := input.takeWhile isdigit
  if ds = [] then none else some (dec_value ds, input.dropWhile isdigit)

/-- The conversion `%i` of `fscanf` on input whose leading white space has been
skipped. -/
def scan_i (input : List Nat) : Option (Int × List Nat) :=
  match input with
  | 45 :: rest => (scan_i_unsigned rest).map fun r => (-(r.1 : Int), r.2)
  | 43 :: rest => (scan_i_unsigned rest).map fun r => ((r.1 : Int), r.2)
  | _ => (scan_i_unsigned input).map fun r => ((r.1 : Int), r.2)

/-- One call `fscanf(working_file, "%s %lf %i", region_name, &region_area,
&region_population)` on the rest of the file: `none` when it returns `EOF`,
otherwise the three variables after the call (a variable whose conversion did
not happen keeps its value) and the input left (a conversion that fails is
taken to consume nothing after the white space; the C library also consumes
the bytes of a partial match, such as a lone sign). -/
def fscanf_record (input : List Nat) (vars : record) : Option (record × List Nat) :=
  match scan_s input with
  | none => none
  | some (name, rest1) =>
    let vars1 : record := { vars with region_name := name }
    match scan_lf (rest1.dropWhile isspace) with
    | none => some (vars1, rest1.dropWhile isspace)
    | some (area, rest2) =>
      let vars2 : record := { vars1 with region_area := area }
      match scan_i (rest2.dropWhile isspace) with
      | none => some (vars2, rest2.dropWhile isspace)
      | some (population, rest3) =>
        some ({ vars2 with region_population := population }, rest3)

/-- The reading loop of `get_records_arr`: every call of `fscanf` that does
not return `EOF` appends a record holding the three variables (the name copied
by `strncpy` with room for `REGION_NAME_MAX - 1` bytes). The first argument
bounds the number of calls. -/
def get_records_loop : Nat → List Nat → record → List record
  | 0, _, _ => []
  | fuel + 1, input, vars =>
    match fscanf_record input vars with
    | none => []
    | some (vars1, rest) =>
      { vars1 with region_name := (cstr vars1.region_name).take (REGION_NAME_MAX - 1) } ::
        get_records_loop fuel rest vars1

/-- Source: `get_records_arr` on the content of the file (for a non-null
handle and successful allocations): the records read. Every call consumes at
least one byte, so as many calls as the content has bytes reach the end of
file. -/
def get_records_arr (content : List Nat) : List record :=
  get_records_loop content.length content ⟨[], .fin 0, 0⟩

/-! ## Files and the rewriting operations -/

/-- A `FILE *` that is not null: the path it was opened on and a number that
tells one open stream from another. -/
structure FILE where
  path : List Nat
  fd : Nat
  deriving DecidableEq

/-- The files of the working folder: the content stored under each path. -/
abbrev FileSystem := List Nat → Option (List Nat)

/-- The messages the operations print. -/
inductive Message where
  | no_file_was_opened
  | empty_file
  | records_are_not_sorted
  | cant_create_temporary_file
  | cant_rename_temporary_file
  | deleted_successfully
  | replaced_with_record
  | sorted_successfully
  | inserted_successfully
  deriving DecidableEq

/-- What an operation does to the outside, in order. -/
inductive Effect where
  | message (m : Message)
  | fopen_temp (ok : Bool)
  | input_record (r : record)
  | write_record (path : List Nat) (r : record)
  | fclose (path : List Nat)
  | rename (source target : List Nat) (ok : Bool)
  | fopen_append (path : List Nat)
  deriving DecidableEq

/-- The result of an operation: the `FILE *` it returns, the files afterwards,
and what it did. -/
structure Outcome where
  file : Option FILE
  fs : FileSystem
  trace : List Effect

/-- The content read through an open stream. -/
def read_file (fs : FileSystem) (file : FILE) : List Nat := (fs file.path).getD []

/-- The C library `fopen(path, "w")` when it succeeds: the file is created or
emptied. -/
def fopen_w (fs : FileSystem) (path : List Nat) : FileSystem :=
  fun p => if p = path then some [] else fs p

/-- Source: `write_record` on a stream that is not null: one line is
appended. -/
def write_record (fs : FileSystem) (path : List Nat) (data : record) : FileSystem :=
  fun p => if p = path then some ((fs path).getD [] ++ record_line data) else fs p

/-- The calls of `write_record` on the temporary file, in order. -/
def write_records (fs : FileSystem) (path : List Nat) (records : List record) : FileSystem :=
  records.foldl (fun fs1 r => write_record fs1 path r) fs

/-- The C library `rename(source, target)` when it succeeds: the content of
`source` is now stored under `target`, and `source` is gone; nothing happens
when both are the same file. -/
def rename_file (fs : FileSystem) (source target : List Nat) : FileSystem :=
  fun p => if p = target then fs source else if p = source then none else fs p

/-- The records passed to `write_record` in a run of effects. -/
def written : List Effect → List record
  | [] => []
  | .write_record _ r :: rest => r :: written rest
  | _ :: rest => written rest

/-- The steps every operation takes once the temporary file is open: run the
write loop (its effects are `loop`), close both files, rename the temporary
file over `filepath`, reopen and report. `rename_ok` is whether `rename`
succeeds, `reopen` the stream number `fopen(filepath, "a+")` yields (`none`
for a null pointer). -/
def commit_records (fs : FileSystem) (working_file : FILE) (working_file_name : List Nat)
    (before loop after : List Effect) (rename_ok : Bool) (reopen : Option Nat) : Outcome :=
  let fs1 := write_records (fopen_w fs temp_filepath) temp_filepath (written loop)
  let filepath := record_filepath working_file_name
  let trace := before ++ loop ++
    [.fclose working_file.path, .fclose temp_filepath, .rename temp_filepath filepath rename_ok]
  if rename_ok then
    { file := reopen.map fun fd => ⟨filepath, fd⟩,
      fs := rename_file fs1 temp_filepath filepath,
      trace := trace ++ .fopen_append filepath :: after }
  else
    { file := some working_file, fs := fs1,
      trace := trace ++ [.message .cant_rename_temporary_file] }

/-- Source: the write loop of `delete_record`: the records passed to
`write_record`, for the loop counter starting at `i`. -/
def delete_loop : List record → Nat → Nat → List record
  | [], _, _ => []
  | d :: rest, i, current_position =>
    if i = current_position then delete_loop rest (i + 1) current_position
    else d :: delete_loop rest (i + 1) current_position

/-- Source: the write loop of `edit_record`, for the loop counter starting at
`i`: at the chosen row the new record is asked for (`input_data` is the record
the three input loops end with) and written instead of the old one. -/
def edit_loop : List record → Nat → Nat → record → List Effect
  | [], _, _, _ => []
  | d :: rest, i, current_position, input_data =>
    if i = current_position then
      .input_record input_data :: .write_record temp_filepath input_data ::
        edit_loop rest (i + 1) current_position input_data
    else .write_record temp_filepath d :: edit_loop rest (i + 1) current_position input_data

/-- Source: `delete_record`. `choice` is how the selection loop ends (`none`:
the exit key, `some i`: the enter key on row `i`), `temp_ok` whether the
temporary file can be opened. -/
def delete_record (fs : FileSystem) (working_file : Option FILE)
    (working_file_name : List Nat) (choice : Option Nat)
    (temp_ok rename_ok : Bool) (reopen : Option Nat) : Outcome :=
  match working_file with
  | none => ⟨none, fs, [.message .no_file_was_opened]⟩
  | some file =>
    let data := get_records_arr (read_file fs file)
    if data.length = 0 then ⟨some file, fs, [.message .empty_file]⟩
    else
      match choice with
      | none => ⟨some file, fs, []⟩
      | some current_position =>
        if temp_ok then
          commit_records fs file working_file_name [.fopen_temp true]
            ((delete_loop data 0 current_position).map (Effect.write_record temp_filepath))
            [.message .deleted_successfully] rename_ok reopen
        else ⟨some file, fs, [.fopen_temp false, .message .cant_create_temporary_file]⟩

/-- Source: `edit_record`. The new record is asked for inside the write loop,
when the counter reaches the chosen row. -/
def edit_record (fs : FileSystem) (working_file : Option FILE)
    (working_file_name : List Nat) (choice : Option Nat) (input_data : record)
    (temp_ok rename_ok : Bool) (reopen : Option Nat) : Outcome :=
  match working_file with
  | none => ⟨none, fs, [.message .no_file_was_opened]⟩
  | some file =>
    let data := get_records_arr (read_file fs file)
    if data.length = 0 then ⟨some file, fs, [.message .empty_file]⟩
    else
      match choice with
      | none => ⟨some file, fs, []⟩
      | some current_position =>
        if temp_ok then
          commit_records fs file working_file_name [.fopen_temp true]
            (edit_loop data 0 current_position input_data)
            [.message .replaced_with_record] rename_ok reopen
        else ⟨some file, fs, [.fopen_temp false, .message .cant_create_temporary_file]⟩

/-- Source: `order_records`. `choice` is how the two selection loops end
(`none`: the exit key). The success message is printed before the temporary
file is opened. -/
def order_records (fs : FileSystem) (working_file : Option FILE)
    (working_file_name : List Nat) (choice : Option (sort_option × order_option))
    (temp_ok rename_ok : Bool) (reopen : Option Nat) : Outcome :=
  match working_file with
  | none => ⟨none, fs, [.message .no_file_was_opened]⟩
  | some file =>
    let data := get_records_arr (read_file fs file)
    if data.length = 0 then ⟨some file, fs, [.message .empty_file]⟩
    else
      match choice with
      | none => ⟨some file, fs, []⟩
      | some (current_sort_option, current_order_option) =>
        if temp_ok then
          commit_records fs file working_file_name
            [.message .sorted_successfully, .fopen_temp true]
            ((sort_records data current_sort_option current_order_option).map
              (Effect.write_record temp_filepath))
            [] rename_ok reopen
        else
          ⟨some file, fs, [.message .sorted_successfully, .fopen_temp false,
            .message .cant_create_temporary_file]⟩

/-- Source: `insert_record`. The order is detected first; the new record is
asked for after the temporary file has been opened. -/
def insert_record (fs : FileSystem) (working_file : Option FILE)
    (working_file_name : List Nat) (input_data : record)
    (temp_ok rename_ok : Bool) (reopen : Option Nat) : Outcome :=
  match working_file with
  | none => ⟨none, fs, [.message .no_file_was_opened]⟩
  | some file =>
    let data := get_records_arr (read_file fs file)
    if data.length = 0 then ⟨some file, fs, [.message .empty_file]⟩
    else
      match check_sort_order data with
      | none => ⟨some file, fs, [.message .records_are_not_sorted]⟩
      | some (sorting_option, ordering_option) =>
        if temp_ok then
          commit_records fs file working_file_name
            [.fopen_temp true, .input_record input_data]
            ((insert_loop data 0
              (find_insert_position data input_data sorting_option ordering_option)
              input_data).map (Effect.write_record temp_filepath))
            [.message .inserted_successfully] rename_ok reopen
        else ⟨some file, fs, [.fopen_temp false, .message .cant_create_temporary_file]⟩

/-! ## Reference notions for stored text -/

/-- Data model: a name that `%s` reads back: not empty, no NUL byte and no
white space. -/
def name_ok (name : List Nat) : Bool :=
  name ≠ [] && name.all (fun c => c != 0 && !isspace c)

/-- What `%lf` reads back from what `%lf` wrote: the `double` nearest to the
area rounded to six digits after the decimal point. -/
def lf_round : Double → Double
  | .fin q =>
    if q < 0 then Double.neg (nearest_double (round_micro q) 1000000)
    else nearest_double (round_micro q) 1000000
  | a => a

/-- The record `get_records_arr` builds from the line `write_record` wrote for
a record. -/
def reload (r : record) : record :=
  ⟨(cstr r.region_name).take (REGION_NAME_MAX - 1), lf_round r.region_area,
    r.region_population⟩

/-- Specification: a well-formed line `name area population`: three fields
separated by single spaces, the name not empty, the area and the population
numerals read to their last byte. -/
def well_formed_line (line : List Nat) : Bool :=
  match line.splitOn 32 with
  | [name, area, population] =>
    name ≠ [] && (scan_lf area).any (fun r => r.2 = []) &&
      (scan_i population).any (fun r => r.2 = [])
  | _ => false

/-- Specification: the number of well-formed lines of a content. -/
def well_formed_lines (content : List Nat) : Nat :=
  (content.splitOn 10).countP well_formed_line

/-- The record `("A", 2^-24, 7)`: its area is a `double` below the sixth
decimal place. -/
def tiny : record := ⟨[65], .fin (mkRat 1 16777216), 7⟩

/-- The record `("", 1.0, 5)`: `string_input` accepts an empty line as a name. -/
def nameless : record := ⟨[], .fin 1, 5⟩

/-- The record `("T", 0.1, 3)`: its area is the `double` nearest to one tenth,
`3602879701896397 / 2^55`. -/
def tenth : record := ⟨[84], .fin (mkRat 3602879701896397 36028797018963968), 3⟩

/-- The record `("P", 3.14, 9)`: its area is the `double` nearest to 3.14,
`7070651414971679 / 2^51`. -/
def pi_ish : record := ⟨[80], .fin (mkRat 7070651414971679 2251799813685248), 9⟩

/-- The path `./files/data.txt`. -/
def data_txt_path : List Nat :=
  [46, 47, 102, 105, 108, 101, 115, 47, 100, 97, 116, 97, 46, 116, 120, 116]

/-- The file name `data.txt`. -/
def data_txt : List Nat := [100, 97, 116, 97, 46, 116, 120, 116]

/-- A working folder that holds `data.txt` with the records Alpha, Beta,
Delta. -/
def sample_fs : FileSystem :=
  fun p => if p = data_txt_path then some (render [alpha, beta, delta]) else none

/-- A working folder that holds `temp.txt` with the records Alpha, Beta,
Delta. -/
def temp_fs : FileSystem :=
  fun p => if p = temp_filepath then some (render [alpha, beta, delta]) else none

/-- A working folder that holds `data.txt` with the records Beta, Alpha,
Delta, which no key orders in either direction. -/
def unsorted_fs : FileSystem :=
  fun p => if p = data_txt_path then some (render [beta, alpha, delta]) else none

/-- A working folder that holds an empty `data.txt`. -/
def empty_fs : FileSystem := fun p => if p = data_txt_path then some [] else none

/-! ## Keyboard input -/

/-- Source: the reading loop of `string_input`. The input is the bytes still
to come from `getchar` (at its end `getchar` yields `EOF`, the byte 255 as a
`char`); `line` is what the buffer holds so far. The first argument is the
number of further iterations the `while (i < max_len)` test allows. The result
is the return value, the buffer as a string, and the input left. -/
def string_input_loop : Nat → List Nat → List Nat → Bool × List Nat × List Nat
  | 0, stdin, line =>
    if stdin.headD 255 = 10 then (true, line, stdin.tail)
    else (false, line ++ [stdin.headD 255], stdin.tail)
  | n + 1, stdin, line =>
    if stdin.headD 255 = 10 then (true, line, stdin.tail)
    else string_input_loop n stdin.tail (line ++ [stdin.headD 255])

/-- Source: `string_input(line, max_len)` reading from the given input. -/
def string_input (stdin : List Nat) (max_len : Nat) : Bool × List Nat × List Nat :=
  string_input_loop (max_len - 1) stdin []

/-- Source: `EXIT_BUTTON`. -/
def EXIT_BUTTON : Nat := 27

/-- The C library `toupper` in the "C" locale. -/
def toupper (c : Nat) : Nat := if 97 ≤ c ∧ c ≤ 122 then c - 32 else c

/-- Source: `navigate_list` for the key `key_pressed()` returns: the position
returned and the two flags afterwards. -/
def navigate_list (current_position size : Int) (key : Nat) (is_exit is_chosen : Bool) :
    Int × Bool × Bool :=
  if toupper key = 87 then
    (if current_position > 0 then current_position - 1 else current_position,
      is_exit, is_chosen)
  else if toupper key = 83 then
    (if current_position < size - 1 then current_position + 1 else current_position,
      is_exit, is_chosen)
  else if toupper key = 10 then (current_position, is_exit, true)
  else if toupper key = EXIT_BUTTON then (current_position, true, is_chosen)
  else (current_position, is_exit, is_chosen)

/-- How a selection loop ends on the keys pressed: with the exit key, with a
choice, or not at all when the keys run out before either. -/
inductive Selection (α : Type) where
  | exit : Selection α
  | chosen (a : α) : Selection α
  | waiting : Selection α
  deriving DecidableEq

/-- Source: the selection loop of `delete_record` and `edit_record`,
`do { current_position = navigate_list(...); if (is_exit) return; }
while (!is_chosen)`, on the keys pressed. -/
def select_row : List Nat → Int → Int → Selection Int
  | [], _, _ => .waiting
  | key :: keys, size, current_position =>
    if (navigate_list current_position size key false false).2.1 then .exit
    else if (navigate_list current_position size key false false).2.2 then
      .chosen (navigate_list current_position size key false false).1
    else select_row keys size (navigate_list current_position size key false false).1

/-- Source: the selection loop of `order_records` once the sort option is
chosen: every further key goes to the list of order options. -/
def select_order : List Nat → Int → Int → Selection (Int × Int)
  | [], _, _ => .waiting
  | key :: keys, current_sort_option, current_order_option =>
    if (navigate_list current_order_option NUMBER_OF_ORDERS.toNat key false false).2.1 then
      .exit
    else if (navigate_list current_order_option NUMBER_OF_ORDERS.toNat key false
        false).2.2 then
      .chosen (current_sort_option,
        (navigate_list current_order_option NUMBER_OF_ORDERS.toNat key false false).1)
    else
      select_order keys current_sort_option
        (navigate_list current_order_option NUMBER_OF_ORDERS.toNat key false false).1

/-- Source: the selection loop of `order_records` while the sort option is not
chosen; the order option starts at `current_order_option`. -/
def select_sort : List Nat → Int → Int → Selection (Int × Int)
  | [], _, _ => .waiting
  | key :: keys, current_sort_option, current_order_option =>
    if (navigate_list current_sort_option NUMBER_OF_SORTS.toNat key false false).2.1 then
      .exit
    else if (navigate_list current_sort_option NUMBER_OF_SORTS.toNat key false
        false).2.2 then
      select_order keys
        (navigate_list current_sort_option NUMBER_OF_SORTS.toNat key false false).1
        current_order_option
    else
      select_sort keys
        (navigate_list current_sort_option NUMBER_OF_SORTS.toNat key false false).1
        current_order_option

/-- The file name `abcdefgh`, eight bytes long. -/
def abcdefgh : List Nat := [97, 98, 99, 100, 101, 102, 103, 104]

/-- The region name `a b`, with a space in the middle. -/
def a_b : List Nat := [97, 32, 98]

/-! ## Bubble passes: general facts -/

section Passes

variable {α : Type} (cmp : α → α → Int)

theorem pass_zero (l : List α) : pass cmp 0 l = l := by
  cases l <;> simp [pass]

theorem pass_short (k : Nat) (l : List α) (h : l.length ≤ 1) : pass cmp k l = l := by
  match k, l, h with
  | 0, l, _ => exact pass_zero cmp l
  | _ + 1, [], _ => simp [pass]
  | _ + 1, [_], _ => simp [pass]

theorem pass_perm (k : Nat) (l : List α) : (pass cmp k l).Perm l := by
  induction k generalizing l with
  | zero => rw [pass_zero]
  | succ k ih =>
    match l with
    | [] => simp [pass]
    | [_] => simp [pass]
    | x :: y :: rest =>
      simp only [pass]
      split
      · exact ((ih (x :: rest)).cons y).trans (List.Perm.swap x y rest)
      · exact (ih (y :: rest)).cons x

theorem pass_length (k : Nat) (l : List α) : (pass cmp k l).length = l.length :=
  (pass_perm cmp k l).length_eq

theorem pass_append (k : Nat) (l s : List α) (h : l.length = k + 1) :
    pass cmp k (l ++ s) = pass cmp k l ++ s := by
  induction k generalizing l with
  | zero => simp [pass_zero]
  | succ k ih =>
    match l, h with
    | x :: y :: rest, h =>
      simp only [List.length_cons, Nat.add_right_cancel_iff] at h
      simp only [List.cons_append, pass]
      split
      · have := ih (x :: rest) (by simpa using h)
        simpa using this
      · have := ih (y :: rest) (by simpa using h)
        simpa using this

theorem pass_eq_bub (x : α) (r : List α) :
    pass cmp r.length (x :: r) = (bub cmp x r).1 ++ [(bub cmp x r).2] := by
  induction r generalizing x with
  | nil => simp [pass, bub]
  | cons y r ih =>
    simp only [List.length_cons, pass, bub]
    split
    · simp [ih x]
    · simp [ih y]

theorem bub_length (x : α) (r : List α) : (bub cmp x r).1.length = r.length := by
  induction r generalizing x with
  | nil => simp [bub]
  | cons y r ih =>
    simp only [bub]
    split <;> simp [ih]


variable {cmp}

theorem BarrierOrder.refl {B : α → Prop} (hc : BarrierOrder cmp B) (a : α) : cmp a a ≤ 0 := by
  by_contra hne
  exact hne (hc.asym a a (by omega))

theorem bub_last_le {B : α → Prop} (hc : BarrierOrder cmp B) (h x : α) (r : List α)
    (hx : (∀ b ∈ r, ¬ B b) → cmp x h ≤ 0) (hr : Dom cmp B h r) :
    cmp (bub cmp x r).2 h ≤ 0 := by
  induction r generalizing x with
  | nil => simpa [bub] using hx
  | cons y r ih =>
    obtain ⟨hy, hr'⟩ := hr
    simp only [bub]
    split
    · rename_i hgt
      refine ih x (fun hb => hx ?_) hr'
      intro b hb'
      rcases List.mem_cons.1 hb' with rfl | hb'
      · intro hB
        have := (hc.bar b x hB).2
        omega
      · exact hb b hb'
    · exact ih y hy hr'

theorem bub_dom {B : α → Prop} (hc : BarrierOrder cmp B) (x : α) (r : List α) :
    Dom cmp B (bub cmp x r).2 (bub cmp x r).1 ∧
      ((∀ b ∈ (bub cmp x r).1, ¬ B b) → ∀ w, cmp w x ≤ 0 → cmp w (bub cmp x r).2 ≤ 0) := by
  induction r generalizing x with
  | nil => simp [bub, Dom]
  | cons y r ih =>
    simp only [bub]
    split
    · rename_i hgt
      obtain ⟨hd, hw⟩ := ih x
      refine ⟨⟨fun hb => hw hb y (hc.asym x y hgt), hd⟩, fun hb w hwx => ?_⟩
      exact hw (fun b hb' => hb b (List.mem_cons_of_mem _ hb')) w hwx
    · rename_i hgt
      obtain ⟨hd, hw⟩ := ih y
      refine ⟨⟨fun hb => hw hb x (by omega), hd⟩, fun hb w hwx => ?_⟩
      refine hw (fun b hb' => hb b (List.mem_cons_of_mem _ hb')) w ?_
      exact hc.trans w x y (hb x (List.mem_cons_self _ _)) hwx (by omega)

theorem bsort_chain {B : α → Prop} (hc : BarrierOrder cmp B) (n : Nat) (p s : List α)
    (hp : p.length = n + 1) (hs : List.Chain' (fun a b => cmp a b ≤ 0) s)
    (hd : ∀ h ∈ s.head?, Dom cmp B h p) :
    List.Chain' (fun a b => cmp a b ≤ 0) (bsort cmp n (p ++ s)) := by
  induction n generalizing p s with
  | zero =>
    match p, hp with
    | [x], _ =>
      simp only [bsort, List.singleton_append]
      refine List.Chain'.cons' hs ?_
      intro h hh
      exact (hd h hh).1 (by simp)
  | succ n ih =>
    match p, hp with
    | x :: r, hp =>
      have hr : r.length = n + 1 := by simpa using hp
      have e : pass cmp (n + 1) (x :: r ++ s) =
          (bub cmp x r).1 ++ ((bub cmp x r).2 :: s) := by
        rw [pass_append cmp (n + 1) (x :: r) s (by simp [hr]), ← hr, pass_eq_bub]
        simp
      simp only [bsort]
      rw [e]
      refine ih _ _ (by rw [bub_length, hr]) (List.Chain'.cons' hs ?_) ?_
      · intro h hh
        obtain ⟨hx, hr'⟩ := hd h hh
        exact bub_last_le hc h x r hx hr'
      · intro h hh
        simp only [List.head?_cons, Option.mem_def, Option.some.injEq] at hh
        subst hh
        exact (bub_dom hc x r).1

theorem bsort_sorted {B : α → Prop} (hc : BarrierOrder cmp B) (l : List α) :
    List.Chain' (fun a b => cmp a b ≤ 0) (bsort cmp (l.length - 1) l) := by
  match l with
  | [] => simp [bsort]
  | x :: r =>
    have := bsort_chain hc r.length (x :: r) [] (by simp) List.chain'_nil (by simp)
    simpa using this

theorem bsort_perm (n : Nat) (l : List α) : (bsort cmp n l).Perm l := by
  induction n generalizing l with
  | zero => simp [bsort]
  | succ n ih => exact (ih _).trans (pass_perm cmp _ l)

theorem pass_filter (p : α → Bool) (hp : ∀ a b, p a = true → p b = true → cmp a b ≤ 0)
    (k : Nat) (l : List α) : (pass cmp k l).filter p = l.filter p := by
  induction k generalizing l with
  | zero => rw [pass_zero]
  | succ k ih =>
    match l with
    | [] => simp [pass]
    | [_] => simp [pass]
    | x :: y :: rest =>
      simp only [pass]
      split
      · rename_i hgt
        rw [List.filter_cons, ih (x :: rest)]
        by_cases hx : p x = true
        · by_cases hy : p y = true
          · have := hp x y hx hy
            omega
          · simp [List.filter_cons, hx, hy]
        · simp [List.filter_cons, hx]
      · rw [List.filter_cons, ih (y :: rest), ← List.filter_cons]

theorem bsort_filter (p : α → Bool) (hp : ∀ a b, p a = true → p b = true → cmp a b ≤ 0)
    (n : Nat) (l : List α) : (bsort cmp n l).filter p = l.filter p := by
  induction n generalizing l with
  | zero => simp [bsort]
  | succ n ih => simp only [bsort]; rw [ih, pass_filter p hp]

theorem pass_of_chain (k : Nat) (l : List α)
    (h : List.Chain' (fun a b => cmp a b ≤ 0) l) : pass cmp k l = l := by
  induction k generalizing l with
  | zero => rw [pass_zero]
  | succ k ih =>
    match l, h with
    | [], _ => simp [pass]
    | [_], _ => simp [pass]
    | x :: y :: rest, h =>
      have hxy : cmp x y ≤ 0 := (List.chain'_cons.1 h).1
      have h' := (List.chain'_cons.1 h).2
      simp only [pass]
      rw [if_neg (by omega), ih _ h']

theorem bsort_of_chain (n : Nat) (l : List α)
    (h : List.Chain' (fun a b => cmp a b ≤ 0) l) : bsort cmp n l = l := by
  induction n with
  | zero => simp [bsort]
  | succ n ih => simp only [bsort]; rw [pass_of_chain _ _ h, ih]

end Passes

/-! ## The loops of `sort_records` are bubble passes -/

theorem getElem?_append_at (pre : List record) (l : List record) (k : Nat) :
    (pre ++ l)[pre.length + k]? = l[k]? := by
  rw [List.getElem?_append_right (by omega)]
  congr 1
  omega

theorem set_append_at (pre : List record) (l : List record) (k : Nat) (a : record) :
    (pre ++ l).set (pre.length + k) a = pre ++ l.set k a := by
  rw [List.set_append_right _ _ (by omega)]
  congr 2
  omega

theorem sort_step_append (s : sort_option) (o : order_option) (pre : List record)
    (x y : record) (rest : List record) :
    sort_step s o (pre ++ x :: y :: rest) pre.length =
      if compare_records x y s o > 0 then pre ++ y :: x :: rest else pre ++ x :: y :: rest := by
  have h0 := getElem?_append_at pre (x :: y :: rest) 0
  have h1 := getElem?_append_at pre (x :: y :: rest) 1
  have s0 := set_append_at pre (x :: y :: rest) 0 y
  have s1 := set_append_at pre (y :: y :: rest) 1 x
  simp only [Nat.add_zero, List.getElem?_cons_zero, List.getElem?_cons_succ, List.set_cons_zero,
    List.set_cons_succ] at h0 h1 s0 s1
  simp only [sort_step, swap_records, h0, h1, s0, s1]

theorem sort_inner_outside (s : sort_option) (o : order_option) (data : List record)
    (j n : Nat) (h : data.length ≤ j + 1) : sort_inner s o data j n = data := by
  induction n generalizing j with
  | zero => rfl
  | succ n ih =>
    have hnone : data[j + 1]? = none := List.getElem?_eq_none (by omega)
    have hstep : sort_step s o data j = data := by
      simp only [sort_step, hnone]
      split <;> simp_all
    rw [sort_inner, hstep]
    exact ih (j + 1) (by omega)

theorem sort_inner_eq_pass (s : sort_option) (o : order_option) (n : Nat)
    (pre l : List record) :
    sort_inner s o (pre ++ l) pre.length n =
      pre ++ pass (fun a b => compare_records a b s o) n l := by
  induction n generalizing pre l with
  | zero => simp [sort_inner, pass_zero]
  | succ n ih =>
    match l with
    | [] => rw [sort_inner_outside _ _ _ _ _ (by simp)]; simp [pass]
    | [x] => rw [sort_inner_outside _ _ _ _ _ (by simp)]; simp [pass]
    | x :: y :: rest =>
      rw [sort_inner, sort_step_append]
      simp only [pass]
      split
      · have := ih (pre ++ [y]) (x :: rest)
        simpa using this
      · have := ih (pre ++ [x]) (y :: rest)
        simpa using this

theorem sort_outer_eq_bsort (s : sort_option) (o : order_option) (n i : Nat)
    (data : List record) :
    sort_outer s o (n + 1 + i) data i n =
      bsort (fun a b => compare_records a b s o) n data := by
  induction n generalizing i data with
  | zero => simp [sort_outer, bsort]
  | succ n ih =>
    have e : n + 1 + 1 + i - i - 1 = n + 1 := by omega
    have e' : n + 1 + 1 + i = n + 1 + (i + 1) := by omega
    rw [sort_outer, e, bsort]
    have := sort_inner_eq_pass s o (n + 1) [] data
    simp only [List.nil_append, List.length_nil] at this
    rw [this, e', ih]

theorem sort_records_eq_bsort (data : List record) (s : sort_option) (o : order_option) :
    sort_records data s o =
      bsort (fun a b => compare_records a b s o) (data.length - 1) data := by
  unfold sort_records
  match data with
  | [] => simp [sort_outer, bsort]
  | x :: r =>
    have := sort_outer_eq_bsort s o r.length 0 (x :: r)
    simpa using this

theorem is_sorted_iff_chain (data : List record) (s : sort_option) (o : order_option) :
    is_sorted data s o = true ↔
      List.Chain' (fun a b => compare_records a b s o ≤ 0) data := by
  induction data with
  | nil => simp [is_sorted]
  | cons a rest ih =>
    match rest with
    | [] => simp [is_sorted]
    | b :: rest =>
      rw [is_sorted, List.chain'_cons, ← ih]
      by_cases h : compare_records a b s o > 0
      · simp [h]
      · simp only [h, if_false]
        constructor
        · intro hh; exact ⟨by omega, hh⟩
        · intro hh; exact hh.2

/-! ## `strcmp` and the lexicographic order -/

theorem cstr_nil : cstr [] = [] := rfl

theorem cstr_cons_zero (l : List Nat) : cstr (0 :: l) = [] := by
  simp [cstr]

theorem cstr_cons_pos (a : Nat) (l : List Nat) (h : a ≠ 0) : cstr (a :: l) = a :: cstr l := by
  simp [cstr, List.takeWhile_cons, h]

theorem cons_lt_cons_iff_bytes (a b : Nat) (l m : List Nat) :
    a :: l < b :: m ↔ a < b ∨ (a = b ∧ l < m) := by
  constructor
  · intro h
    cases h with
    | cons h => exact Or.inr ⟨rfl, h⟩
    | rel h => exact Or.inl h
  · rintro (h | ⟨rfl, h⟩)
    · exact List.Lex.rel h
    · exact List.Lex.cons h

theorem strcmp_neg (a b : List Nat) : strcmp b a = - strcmp a b := by
  induction a generalizing b with
  | nil => cases b <;> simp [strcmp]
  | cons x as ih =>
    cases b with
    | nil => simp [strcmp]
    | cons y bs =>
      simp only [strcmp]
      by_cases h : x = y
      · subst h
        by_cases h0 : x = 0
        · simp [h0]
        · simp [h0, ih]
      · have h' : ¬ y = x := fun e => h e.symm
        simp [h, h']

theorem strcmp_lt_iff (a b : List Nat) : strcmp a b < 0 ↔ cstr a < cstr b := by
  induction a generalizing b with
  | nil =>
    cases b with
    | nil => simp [strcmp, cstr_nil]
    | cons y bs =>
      by_cases hy : y = 0
      · subst hy; simp [strcmp, cstr_nil, cstr_cons_zero]
      · rw [cstr_cons_pos _ _ hy, cstr_nil]
        simp only [strcmp, List.nil_lt_cons, iff_true]
        omega
  | cons x as ih =>
    cases b with
    | nil =>
      simp only [strcmp, cstr_nil]
      constructor
      · intro h; omega
      · intro h; exact absurd h (List.Lex.not_nil_right _ _)
    | cons y bs =>
      simp only [strcmp]
      by_cases hx : x = 0
      · subst hx
        by_cases hy : y = 0
        · subst hy; simp [cstr_cons_zero]
        · rw [cstr_cons_zero, cstr_cons_pos _ _ hy]
          have : ¬ 0 = y := fun e => hy e.symm
          simp only [this, if_false, List.nil_lt_cons, iff_true]
          omega
      · by_cases hy : y = 0
        · subst hy
          rw [cstr_cons_zero, cstr_cons_pos _ _ hx]
          simp only [hx, if_false]
          constructor
          · intro h; omega
          · intro h; exact absurd h (List.Lex.not_nil_right _ _)
        · rw [cstr_cons_pos _ _ hx, cstr_cons_pos _ _ hy, cons_lt_cons_iff_bytes]
          by_cases hxy : x = y
          · subst hxy
            simp [hx, ih]
          · simp only [hxy, if_false, false_and, or_false]
            omega

theorem strcmp_pos_iff (a b : List Nat) : 0 < strcmp a b ↔ cstr b < cstr a := by
  rw [← strcmp_lt_iff, strcmp_neg a b]
  omega

theorem strcmp_eq_zero_iff (a b : List Nat) : strcmp a b = 0 ↔ cstr a = cstr b := by
  have h1 := strcmp_lt_iff a b
  have h2 := strcmp_pos_iff a b
  constructor
  · intro h
    rcases lt_trichotomy (cstr a) (cstr b) with hlt | heq | hgt
    · have := h1.2 hlt; omega
    · exact heq
    · have := h2.2 hgt; omega
  · intro h
    rcases lt_trichotomy (strcmp a b) 0 with hlt | heq | hgt
    · have := h1.1 hlt; rw [h] at this; exact absurd this (lt_irrefl _)
    · exact heq
    · have := h2.1 hgt; rw [h] at this; exact absurd this (lt_irrefl _)

theorem strcmp_le_iff (a b : List Nat) : strcmp a b ≤ 0 ↔ cstr a ≤ cstr b := by
  rw [← not_lt, ← not_lt, strcmp_pos_iff]

theorem cstr_of_no_nul (l : List Nat) (h : ∀ c ∈ l, c ≠ 0) : cstr l = l := by
  unfold cstr
  rw [List.takeWhile_eq_self_iff]
  intro c hc
  simpa using h c hc

/-! ## The comparator -/

theorem Double.lt_asymm (a b : Double) (h : Double.lt a b = true) : Double.lt b a = false := by
  cases a <;> cases b <;> simp_all [Double.lt]
  exact le_of_lt h

theorem Double.not_lt_trans (a b c : Double) (hb : b ≠ Double.nan)
    (h1 : Double.lt b a = false) (h2 : Double.lt c b = false) : Double.lt c a = false := by
  cases a <;> cases b <;> cases c <;> simp_all [Double.lt]
  exact Preorder.le_trans _ _ _ h1 h2

theorem Double.lt_or_eq_or_gt (a b : Double) (ha : a ≠ Double.nan) (hb : b ≠ Double.nan) :
    Double.lt a b = true ∨ a = b ∨ Double.lt b a = true := by
  cases a <;> cases b <;> simp_all [Double.lt]
  exact lt_trichotomy _ _

theorem Double.lt_self (a : Double) : Double.lt a a = false := by
  cases a <;> simp [Double.lt]

theorem compare_records_descending (a b : record) (s : sort_option) :
    compare_records a b s DESCENDING_ORDER = - compare_records a b s ASCENDING_ORDER := by
  simp [compare_records]

theorem compare_records_sentinel (a b : record) (s : sort_option) :
    compare_records a b s NUMBER_OF_ORDERS = - compare_records a b s ASCENDING_ORDER := by
  simp [compare_records]

theorem compare_records_swap_ascending (a b : record) (s : sort_option) :
    compare_records b a s ASCENDING_ORDER = - compare_records a b s ASCENDING_ORDER := by
  cases s
  · simp [compare_records, strcmp_neg a.region_name b.region_name]
  · simp only [compare_records, Double.gt, if_true]
    omega
  · simp only [compare_records, if_true, gt_iff_lt]
    omega
  · simp [compare_records]

theorem compare_records_swap (a b : record) (s : sort_option) (o : order_option) :
    compare_records b a s o = - compare_records a b s o := by
  cases o
  · rw [compare_records_descending, compare_records_descending, compare_records_swap_ascending]
  · exact compare_records_swap_ascending a b s
  · rw [compare_records_sentinel, compare_records_sentinel, compare_records_swap_ascending]

theorem area_le_iff (x y : Double) :
    boolToInt (Double.gt x y) - boolToInt (Double.lt x y) ≤ 0 ↔ Double.lt y x = false := by
  unfold Double.gt
  cases h : Double.lt y x
  · cases h2 : Double.lt x y <;> simp [boolToInt]
  · simp [Double.lt_asymm y x h, boolToInt]

theorem compare_records_ascending_trans (a b c : record) (s : sort_option)
    (hb : ¬ area_barrier s b)
    (h1 : compare_records a b s ASCENDING_ORDER ≤ 0)
    (h2 : compare_records b c s ASCENDING_ORDER ≤ 0) :
    compare_records a c s ASCENDING_ORDER ≤ 0 := by
  cases s
  · simp only [compare_records, if_true, strcmp_le_iff] at h1 h2 ⊢
    exact le_trans h1 h2
  · simp only [compare_records, if_true, area_le_iff] at h1 h2 ⊢
    have hb' : b.region_area ≠ Double.nan := fun e => hb ⟨rfl, e⟩
    exact Double.not_lt_trans _ _ _ hb' h1 h2
  · simp only [compare_records, if_true, boolToInt, gt_iff_lt] at h1 h2 ⊢
    by_cases e1 : b.region_population < a.region_population
    · by_cases e2 : a.region_population < b.region_population
      · omega
      · simp [e1, e2] at h1
    · by_cases e3 : c.region_population < b.region_population
      · by_cases e4 : b.region_population < c.region_population
        · omega
        · simp [e3, e4] at h2
      · have e5 : ¬ c.region_population < a.region_population := by omega
        simp only [e5, decide_False, Bool.false_eq_true, if_false]
        split <;> omega
  · simp [compare_records]

theorem compare_records_trans (a b c : record) (s : sort_option) (o : order_option)
    (hb : ¬ area_barrier s b)
    (h1 : compare_records a b s o ≤ 0) (h2 : compare_records b c s o ≤ 0) :
    compare_records a c s o ≤ 0 := by
  cases o
  · rw [compare_records_descending] at h1 h2 ⊢
    have k1 : compare_records b a s ASCENDING_ORDER ≤ 0 := by
      rw [compare_records_swap_ascending]; omega
    have k2 : compare_records c b s ASCENDING_ORDER ≤ 0 := by
      rw [compare_records_swap_ascending]; omega
    have := compare_records_ascending_trans c b a s hb k2 k1
    rw [compare_records_swap_ascending] at this
    omega
  · exact compare_records_ascending_trans a b c s hb h1 h2
  · rw [compare_records_sentinel] at h1 h2 ⊢
    have k1 : compare_records b a s ASCENDING_ORDER ≤ 0 := by
      rw [compare_records_swap_ascending]; omega
    have k2 : compare_records c b s ASCENDING_ORDER ≤ 0 := by
      rw [compare_records_swap_ascending]; omega
    have := compare_records_ascending_trans c b a s hb k2 k1
    rw [compare_records_swap_ascending] at this
    omega

theorem compare_records_barrier (a b : record) (s : sort_option) (o : order_option)
    (ha : area_barrier s a) : compare_records a b s o = 0 := by
  obtain ⟨rfl, hn⟩ := ha
  have : compare_records a b AREA_SORT ASCENDING_ORDER = 0 := by
    simp [compare_records, Double.gt, hn, Double.lt, boolToInt]
    cases b.region_area <;> simp [Double.lt]
  cases o
  · rw [compare_records_descending, this]; rfl
  · exact this
  · rw [compare_records_sentinel, this]; rfl

theorem compare_records_barrierOrder (s : sort_option) (o : order_option) :
    BarrierOrder (fun a b => compare_records a b s o) (area_barrier s) where
  asym a b h := by
    show compare_records b a s o ≤ 0
    have : 0 < compare_records a b s o := h
    rw [compare_records_swap]; omega
  bar a b ha := by
    show compare_records a b s o ≤ 0 ∧ compare_records b a s o ≤ 0
    rw [compare_records_swap a b, compare_records_barrier a b s o ha]
    simp
  trans a b c hb h1 h2 := compare_records_trans a b c s o hb h1 h2

theorem sort_records_filter (data : List record) (s : sort_option) (o : order_option)
    (p : record → Bool)
    (hp : ∀ a b, p a = true → p b = true → compare_records a b s o ≤ 0) :
    (sort_records data s o).filter p = data.filter p := by
  rw [sort_records_eq_bsort]
  exact bsort_filter p hp _ _

/-! ## Sorter: the claims -/

/-- C1: for every record sequence and every key and direction, no adjacent
pair of the output of `sort_records` compares greater than zero, that is,
`is_sorted` holds on the output; and `[Alpha, Beta]` sorted by area ascending
is `[Beta, Alpha]`. -/
theorem sort_records_sorted (data : List record) (key : sort_option) (dir : order_option) :
    is_sorted (sort_records data key dir) key dir = true ∧
      List.Chain' (fun x y => compare_records x y key dir ≤ 0) (sort_records data key dir) ∧
      sort_records [alpha, beta] AREA_SORT ASCENDING_ORDER = [beta, alpha] := by
  have h : List.Chain' (fun x y => compare_records x y key dir ≤ 0)
      (sort_records data key dir) := by
    rw [sort_records_eq_bsort]
    exact bsort_sorted (compare_records_barrierOrder key dir) data
  exact ⟨(is_sorted_iff_chain _ _ _).2 h, h, by decide⟩

/-- C2: `sort_records` is stable: when `x` and `y` compare equal under the
key and direction, the occurrences of `x` and `y` stand in the output in the
same order as in the input. -/
theorem sort_records_stable (data : List record) (key : sort_option) (dir : order_option)
    (x y : record) (h : compare_records x y key dir = 0) :
    (sort_records data key dir).filter (fun r => decide (r = x ∨ r = y)) =
      data.filter (fun r => decide (r = x ∨ r = y)) := by
  apply sort_records_filter
  intro a b ha hb
  have hxx := (compare_records_barrierOrder key dir).refl x
  have hyy := (compare_records_barrierOrder key dir).refl y
  have hyx := compare_records_swap x y key dir
  simp only [decide_eq_true_eq] at ha hb
  rcases ha with rfl | rfl <;> rcases hb with rfl | rfl
  · exact hxx
  · omega
  · omega
  · exact hyy

/-- C2, at a concrete input: `beta` and `delta` have the same area, and sorting
`[delta, alpha, beta]` by area keeps `delta` before `beta`. -/
theorem sort_records_stable_witness :
    compare_records delta beta AREA_SORT ASCENDING_ORDER = 0 ∧
      sort_records [delta, alpha, beta] AREA_SORT ASCENDING_ORDER = [delta, beta, alpha] ∧
      (sort_records [delta, alpha, beta] AREA_SORT ASCENDING_ORDER).filter
          (fun r => decide (r = delta ∨ r = beta)) =
        [delta, alpha, beta].filter (fun r => decide (r = delta ∨ r = beta)) :=
  ⟨by decide, by decide,
    sort_records_stable [delta, alpha, beta] AREA_SORT ASCENDING_ORDER delta beta (by decide)⟩

/-- C3: the output of `sort_records` is a permutation of its input, of the
same length. -/
theorem sort_records_perm (data : List record) (key : sort_option) (dir : order_option) :
    (sort_records data key dir).Perm data ∧
      (sort_records data key dir).length = data.length := by
  have h : (sort_records data key dir).Perm data := by
    rw [sort_records_eq_bsort]
    exact bsort_perm _ _
  exact ⟨h, h.length_eq⟩

/-- C4: on a sequence on which `is_sorted` already holds for the key and
direction, `sort_records` returns the sequence itself. -/
theorem sort_records_of_sorted (data : List record) (key : sort_option) (dir : order_option)
    (h : is_sorted data key dir = true) : sort_records data key dir = data := by
  rw [sort_records_eq_bsort]
  exact bsort_of_chain _ _ ((is_sorted_iff_chain _ _ _).1 h)

/-- C4, at a concrete input: `[Beta, Alpha]` is ordered by area ascending and
sorting it changes nothing. -/
theorem sort_records_of_sorted_witness :
    is_sorted [beta, alpha] AREA_SORT ASCENDING_ORDER = true ∧
      sort_records [beta, alpha] AREA_SORT ASCENDING_ORDER = [beta, alpha] :=
  ⟨by decide, sort_records_of_sorted [beta, alpha] AREA_SORT ASCENDING_ORDER (by decide)⟩

/-! ## Comparator: the claims -/

theorem area_sign (x y : Double) :
    (boolToInt (Double.gt x y) - boolToInt (Double.lt x y) < 0 ↔ Double.lt x y = true) ∧
      (0 < boolToInt (Double.gt x y) - boolToInt (Double.lt x y) ↔ Double.lt y x = true) ∧
      (boolToInt (Double.gt x y) - boolToInt (Double.lt x y) = 0 ↔
        (Double.lt x y = false ∧ Double.lt y x = false)) := by
  unfold Double.gt
  cases h : Double.lt y x
  · cases h2 : Double.lt x y <;> simp [boolToInt]
  · simp [Double.lt_asymm y x h, boolToInt]

theorem population_sign (x y : Int) :
    (boolToInt (decide (x > y)) - boolToInt (decide (x < y)) < 0 ↔ x < y) ∧
      (0 < boolToInt (decide (x > y)) - boolToInt (decide (x < y)) ↔ y < x) ∧
      (boolToInt (decide (x > y)) - boolToInt (decide (x < y)) = 0 ↔ x = y) := by
  simp only [boolToInt, gt_iff_lt]
  rcases lt_trichotomy x y with h | h | h
  · have h' : ¬ y < x := by omega
    simp [h, h']
    omega
  · subst h
    simp
  · have h' : ¬ x < y := by omega
    simp [h, h']
    omega

/-- C5, as stated, fails: with a NaN area in the middle, `≤ 0` is not
transitive (`alpha ≤ gamma ≤ beta` by area ascending, yet `alpha > beta`). -/
theorem compare_records_not_transitive :
    compare_records alpha gamma AREA_SORT ASCENDING_ORDER ≤ 0 ∧
      compare_records gamma beta AREA_SORT ASCENDING_ORDER ≤ 0 ∧
      ¬ compare_records alpha beta AREA_SORT ASCENDING_ORDER ≤ 0 := by
  decide

/-- C5, amended: for every key and direction `compare_records` is
antisymmetric (the sign of `compare(a, b)` is the negation of the sign of
`compare(b, a)`) on all records, and `≤ 0` is transitive through every middle
record `b` except one whose area is NaN under the area key. -/
theorem compare_records_total_preorder (a b c : record) (key : sort_option)
    (dir : order_option) :
    Int.sign (compare_records a b key dir) = - Int.sign (compare_records b a key dir) ∧
      (¬ (key = AREA_SORT ∧ b.region_area = Double.nan) →
        compare_records a b key dir ≤ 0 → compare_records b c key dir ≤ 0 →
        compare_records a c key dir ≤ 0) := by
  refine ⟨?_, fun hb h1 h2 => compare_records_trans a b c key dir hb h1 h2⟩
  rw [compare_records_swap a b, Int.sign_neg, neg_neg]

/-- C5 amended, at a concrete input: by area ascending `beta ≤ delta ≤ alpha`
(areas 2, 2, 10), hence `beta ≤ alpha`. -/
theorem compare_records_total_preorder_witness :
    ¬ (AREA_SORT = AREA_SORT ∧ delta.region_area = Double.nan) ∧
      compare_records beta delta AREA_SORT ASCENDING_ORDER ≤ 0 ∧
      compare_records delta alpha AREA_SORT ASCENDING_ORDER ≤ 0 ∧
      compare_records beta alpha AREA_SORT ASCENDING_ORDER ≤ 0 :=
  ⟨by decide, by decide, by decide,
    (compare_records_total_preorder beta delta alpha AREA_SORT ASCENDING_ORDER).2
      (by decide) (by decide) (by decide)⟩

/-- C6, as stated, fails: under the area key a NaN area compares as zero
against area 2.0, although the two areas are neither equal nor ordered. -/
theorem compare_records_zero_not_equal :
    compare_records gamma beta AREA_SORT ASCENDING_ORDER = 0 ∧
      key_eq AREA_SORT gamma beta = false ∧
      key_lt AREA_SORT gamma beta = false ∧ key_lt AREA_SORT beta gamma = false := by
  decide

/-- C6, amended: for the keys name, area and population, and when the key is
area for two areas that are not NaN, the ascending result of `compare_records`
is negative, zero or positive exactly when the key of `a` is less than, equal
to or greater than the key of `b` (byte-wise lexicographic order of the name
strings, numeric order of areas and populations); the descending result is the
negation of the ascending one. -/
theorem compare_records_sign (a b : record) (key : sort_option)
    (hk : key ≠ NUMBER_OF_SORTS)
    (hn : key = AREA_SORT → a.region_area ≠ Double.nan ∧ b.region_area ≠ Double.nan) :
    (compare_records a b key ASCENDING_ORDER < 0 ↔ key_lt key a b = true) ∧
      (compare_records a b key ASCENDING_ORDER = 0 ↔ key_eq key a b = true) ∧
      (0 < compare_records a b key ASCENDING_ORDER ↔ key_lt key b a = true) ∧
      compare_records a b key DESCENDING_ORDER =
        - compare_records a b key ASCENDING_ORDER := by
  refine ⟨?_, ?_, ?_, compare_records_descending a b key⟩
  · cases key
    · simp [compare_records, key_lt, strcmp_lt_iff]
    · simpa [compare_records, key_lt] using (area_sign a.region_area b.region_area).1
    · simpa [compare_records, key_lt] using
        (population_sign a.region_population b.region_population).1
    · exact absurd rfl hk
  · cases key
    · simp [compare_records, key_eq, strcmp_eq_zero_iff]
    · obtain ⟨ha, hb⟩ := hn rfl
      simp only [compare_records, key_eq, if_true, decide_eq_true_eq]
      rw [(area_sign a.region_area b.region_area).2.2]
      constructor
      · rintro ⟨h1, h2⟩
        rcases Double.lt_or_eq_or_gt _ _ ha hb with h | h | h
        · rw [h1] at h; exact absurd h (by decide)
        · exact h
        · rw [h2] at h; exact absurd h (by decide)
      · intro h
        rw [h]
        exact ⟨Double.lt_self _, Double.lt_self _⟩
    · simpa [compare_records, key_eq] using
        (population_sign a.region_population b.region_population).2.2
    · exact absurd rfl hk
  · cases key
    · simp [compare_records, key_lt, strcmp_pos_iff]
    · simpa [compare_records, key_lt] using (area_sign a.region_area b.region_area).2.1
    · simpa [compare_records, key_lt] using
        (population_sign a.region_population b.region_population).2.1
    · exact absurd rfl hk

/-- C6 amended, at a concrete input: `alpha` (area 10.0) against `beta`
(area 2.0) under the area key. -/
theorem compare_records_sign_witness :
    AREA_SORT ≠ NUMBER_OF_SORTS ∧
      (AREA_SORT = AREA_SORT →
        alpha.region_area ≠ Double.nan ∧ beta.region_area ≠ Double.nan) ∧
      ((compare_records alpha beta AREA_SORT ASCENDING_ORDER < 0 ↔
          key_lt AREA_SORT alpha beta = true) ∧
        (compare_records alpha beta AREA_SORT ASCENDING_ORDER = 0 ↔
          key_eq AREA_SORT alpha beta = true) ∧
        (0 < compare_records alpha beta AREA_SORT ASCENDING_ORDER ↔
          key_lt AREA_SORT beta alpha = true) ∧
        compare_records alpha beta AREA_SORT DESCENDING_ORDER =
          - compare_records alpha beta AREA_SORT ASCENDING_ORDER) :=
  ⟨by decide, by decide, compare_records_sign alpha beta AREA_SORT (by decide) (by decide)⟩

/-! ## Order detector: the claims -/

theorem check_sort_order_eq_find (data : List record) :
    check_sort_order data = candidates.find? (fun c => is_sorted data c.1 c.2) := by
  have r3 : List.range 3 = [0, 1, 2] := by decide
  have r2 : List.range 2 = [0, 1] := by decide
  simp only [check_sort_order, sort_option.toNat, order_option.toNat, candidates, r3, r2,
    List.findSome?, List.find?, sort_option.cast, order_option.cast]
  cases is_sorted data NAME_SORT DESCENDING_ORDER <;>
  cases is_sorted data NAME_SORT ASCENDING_ORDER <;>
  cases is_sorted data AREA_SORT DESCENDING_ORDER <;>
  cases is_sorted data AREA_SORT ASCENDING_ORDER <;>
  cases is_sorted data POPULATION_SORT DESCENDING_ORDER <;>
  cases is_sorted data POPULATION_SORT ASCENDING_ORDER <;> rfl

/-- C7: `check_sort_order` returns the first candidate, in the enumeration
order (name, descending), (name, ascending), (area, descending), (area,
ascending), (population, descending), (population, ascending), on which
`is_sorted` holds: it reports `(key, dir)` exactly when `is_sorted` holds for it
and fails for every earlier candidate, and reports nothing exactly when
`is_sorted` fails for all six. -/
theorem check_sort_order_first_match (data : List record) :
    check_sort_order data = candidates.find? (fun c => is_sorted data c.1 c.2) ∧
      (∀ key dir, check_sort_order data = some (key, dir) ↔
        is_sorted data key dir = true ∧
          ∃ earlier later, candidates = earlier ++ (key, dir) :: later ∧
            ∀ c ∈ earlier, is_sorted data c.1 c.2 = false) ∧
      (check_sort_order data = none ↔ ∀ c ∈ candidates, is_sorted data c.1 c.2 = false) := by
  refine ⟨check_sort_order_eq_find data, fun key dir => ?_, ?_⟩
  · rw [check_sort_order_eq_find, List.find?_eq_some]
    simp
  · rw [check_sort_order_eq_find, List.find?_eq_none]
    simp

/-- C8: on a sequence of length 0 or 1 `check_sort_order` succeeds and
reports (name, descending). -/
theorem check_sort_order_short (data : List record) (h : data.length ≤ 1) :
    check_sort_order data = some (NAME_SORT, DESCENDING_ORDER) := by
  have hs : is_sorted data NAME_SORT DESCENDING_ORDER = true := by
    match data, h with
    | [], _ => rfl
    | [_], _ => rfl
  rw [check_sort_order_eq_find]
  simp [candidates, List.find?, hs]

/-- C8, at the empty collection: `detect([])` is (name, descending). -/
theorem check_sort_order_short_witness :
    ([] : List record).length ≤ 1 ∧
      check_sort_order [] = some (NAME_SORT, DESCENDING_ORDER) :=
  ⟨by decide, check_sort_order_short [] (by decide)⟩

/-- C9, as stated, fails: on `[Alpha, Beta]` the detector does not report
(area, descending). -/
theorem check_sort_order_alpha_beta_not_area :
    check_sort_order [alpha, beta] ≠ some (AREA_SORT, DESCENDING_ORDER) := by
  decide

/-- C9, amended: `[Alpha, Beta]` is ordered by (area, descending), but it is
also ordered by (name, ascending), an earlier candidate of the enumeration, and
not by (name, descending); `check_sort_order` reports (name, ascending). -/
theorem check_sort_order_alpha_beta :
    is_sorted [alpha, beta] AREA_SORT DESCENDING_ORDER = true ∧
      is_sorted [alpha, beta] NAME_SORT DESCENDING_ORDER = false ∧
      is_sorted [alpha, beta] NAME_SORT ASCENDING_ORDER = true ∧
      check_sort_order [alpha, beta] = some (NAME_SORT, ASCENDING_ORDER) := by
  decide

/-! ## Insertion locator: the claims -/

theorem compare_records_pos_iff (d c : record) (key : sort_option) :
    0 < compare_records d c key ASCENDING_ORDER ↔ key_lt key c d = true := by
  cases key
  · simp [compare_records, key_lt, strcmp_pos_iff]
  · simpa [compare_records, key_lt] using (area_sign d.region_area c.region_area).2.1
  · simpa [compare_records, key_lt] using
      (population_sign d.region_population c.region_population).2.1
  · simp [compare_records, key_lt]

/-- C10: in ascending direction, for every key, `find_insert_position` returns
the index of the first element whose key is strictly greater than the
candidate's key, and the length of the sequence when there is none (this is
what `List.findIdx` computes); with populations `[5, 100]` and a candidate of
population 50 the index is 1. -/
theorem find_insert_position_ascending (S : List record) (C : record) (key : sort_option) :
    find_insert_position S C key ASCENDING_ORDER = S.findIdx (fun d => key_lt key C d) ∧
      find_insert_position S C key ASCENDING_ORDER ≤ S.length ∧
      (∀ d ∈ S.take (find_insert_position S C key ASCENDING_ORDER), key_lt key C d = false) ∧
      (∀ d ∈ S[find_insert_position S C key ASCENDING_ORDER]?, key_lt key C d = true) ∧
      find_insert_position [alpha, beta] delta POPULATION_SORT ASCENDING_ORDER = 1 := by
  have e : find_insert_position S C key ASCENDING_ORDER =
      S.findIdx (fun d => key_lt key C d) := by
    induction S with
    | nil => rfl
    | cons d rest ih =>
      rw [find_insert_position, List.findIdx_cons]
      by_cases h : key_lt key C d = true
      · have := (compare_records_pos_iff d C key).2 h
        simp [h, this]
      · have : ¬ 0 < compare_records d C key ASCENDING_ORDER :=
          fun hh => h ((compare_records_pos_iff d C key).1 hh)
        simp [h, this, ih]
  refine ⟨e, ?_, ?_, ?_, by decide⟩
  · rw [e]; exact List.findIdx_le_length _
  · rw [e]
    intro d hd
    obtain ⟨i, hi, rfl⟩ := List.getElem_of_mem hd
    rw [List.getElem_take]
    simp only [List.length_take, Nat.lt_min] at hi
    simpa using List.not_of_lt_findIdx hi.1
  · rw [e]
    intro d hd
    simp only [Option.mem_def] at hd
    obtain ⟨hlt, rfl⟩ := List.getElem?_eq_some.1 hd
    exact List.findIdx_getElem

theorem compare_records_descending_neg_iff (d c : record) (key : sort_option) :
    compare_records d c key DESCENDING_ORDER < 0 ↔ key_lt key c d = true := by
  rw [compare_records_descending, ← compare_records_pos_iff]
  omega

theorem find_insert_position_descending_eq (S : List record) (C : record)
    (key : sort_option) :
    find_insert_position S C key DESCENDING_ORDER =
      find_insert_position S C key ASCENDING_ORDER := by
  induction S with
  | nil => rfl
  | cons d rest ih =>
    have h := compare_records_descending_neg_iff d C key
    have h' := compare_records_pos_iff d C key
    simp only [find_insert_position, ih]
    by_cases hk : key_lt key C d = true
    · have h1 := h.2 hk
      have h2 := h'.2 hk
      simp [h1, h2]
    · have h1 : ¬ compare_records d C key DESCENDING_ORDER < 0 := fun x => hk (h.1 x)
      have h2 : ¬ 0 < compare_records d C key ASCENDING_ORDER := fun x => hk (h'.1 x)
      simp [h1, h2]

theorem insert_loop_eq (data : List record) (i p : Nat) (c : record) (hp : p ≤ data.length) :
    insert_loop data i (i + p) c = data.take p ++ c :: data.drop p := by
  induction data generalizing i p with
  | nil =>
    have : p = 0 := by simpa using hp
    subst this
    simp [insert_loop]
  | cons d rest ih =>
    cases p with
    | zero =>
      have e : insert_loop rest (i + 1) i c = rest := by
        clear ih hp
        suffices h : ∀ (l : List record) (j : Nat), i < j → insert_loop l j i c = l from
          h rest (i + 1) (by omega)
        intro l
        induction l with
        | nil => intro j hj; simp [insert_loop]; omega
        | cons x l ihl =>
          intro j hj
          have : ¬ j = i := by omega
          simp [insert_loop, this, ihl (j + 1) (by omega)]
      simp [insert_loop, e]
    | succ p =>
      have hne : ¬ i = i + (p + 1) := by omega
      have := ih (i + 1) p (by simpa using hp)
      have e : i + 1 + p = i + (p + 1) := by omega
      rw [e] at this
      simp [insert_loop, hne, this]

/-! ## Insertion locator in descending direction -/

/-- C11, evaluated at the failing input: `[Beta, Alpha]` is ordered by
population descending (100, 5); for the candidate `Delta` (population 50) the
first element with a strictly smaller population is at index 1, yet
`find_insert_position` answers 0, the index of the first element with a
strictly greater population, as it does in ascending direction. -/
theorem find_insert_position_descending_first_greater :
    is_sorted [beta, alpha] POPULATION_SORT DESCENDING_ORDER = true ∧
      [beta, alpha].findIdx (fun d => key_lt POPULATION_SORT d delta) = 1 ∧
      find_insert_position [beta, alpha] delta POPULATION_SORT DESCENDING_ORDER = 0 ∧
      [beta, alpha].findIdx (fun d => key_lt POPULATION_SORT delta d) = 0 := by
  decide

/-- C12, evaluated at the failing input: on `[Beta, Alpha]` the detector
reports (name, descending); for the candidate `Delta` the locator answers 2,
and the sequence `insert_record` then writes, `[Beta, Alpha, Delta]`, is not
ordered by (name, descending). -/
theorem insert_breaks_descending_order :
    check_sort_order [beta, alpha] = some (NAME_SORT, DESCENDING_ORDER) ∧
      find_insert_position [beta, alpha] delta NAME_SORT DESCENDING_ORDER = 2 ∧
      insert_loop [beta, alpha] 0 2 delta = [beta, alpha, delta] ∧
      is_sorted [beta, alpha, delta] NAME_SORT DESCENDING_ORDER = false := by
  decide

/-! ## The temporary file path -/

theorem temp_filepath_eq : temp_filepath = working_folder ++ 47 :: temp_txt := by decide

theorem create_filepath_eq_temp_iff (filename : List Nat) :
    create_filepath filename = temp_filepath ↔ cstr filename = [116, 101, 109, 112] := by
  constructor
  · intro h
    have hlen := congrArg List.length h
    simp only [create_filepath, snprintf, filepath_size, FILENAME_SIZE, working_folder,
      dot_txt, temp_filepath, temp_txt, List.length_take, List.length_append,
      List.length_cons, List.length_nil] at hlen
    have h4 : (cstr filename).length = 4 := by omega
    match hc : cstr filename, h4 with
    | [a, b, c, d], _ =>
      rw [create_filepath, hc] at h
      simp only [snprintf, filepath_size, FILENAME_SIZE, working_folder, dot_txt,
        temp_filepath, temp_txt] at h
      simp at h
      obtain ⟨rfl, rfl, rfl, rfl⟩ := h
      rfl
  · intro h
    rw [create_filepath, h]
    decide

/-- C14, as stated, fails: the filename `temp` is accepted by
`is_valid_filename`, and the path `create_file` builds for it is the temporary
file path `./files/temp.txt`. -/
theorem temp_filename_collides :
    is_valid_filename [116, 101, 109, 112] = true ∧
      create_filepath [116, 101, 109, 112] = temp_filepath := by
  decide

/-- C14, amended: for every filename accepted by `is_valid_filename` other
than `temp`, the path `create_file` builds differs from the temporary file
path. -/
theorem create_filepath_ne_temp (filename : List Nat)
    (hv : is_valid_filename filename = true)
    (hn : cstr filename ≠ [116, 101, 109, 112]) :
    create_filepath filename ≠ temp_filepath := by
  have _ := hv
  exact fun h => hn ((create_filepath_eq_temp_iff filename).1 h)

/-- C14 amended, at a concrete input: the filename `data`. -/
theorem create_filepath_ne_temp_witness :
    is_valid_filename [100, 97, 116, 97] = true ∧
      cstr [100, 97, 116, 97] ≠ [116, 101, 109, 112] ∧
      create_filepath [100, 97, 116, 97] ≠ temp_filepath :=
  ⟨by decide, by decide, create_filepath_ne_temp [100, 97, 116, 97] (by decide) (by decide)⟩

/-! ## The rewriting operations: general facts -/

theorem write_records_some (fs : FileSystem) (path content : List Nat)
    (records : List record) (h : fs path = some content) :
    write_records fs path records =
      fun p => if p = path then some (content ++ render records) else fs p := by
  induction records generalizing fs content with
  | nil =>
    funext p
    by_cases hp : p = path
    · subst hp; simp [write_records, render, h]
    · simp [write_records, hp]
  | cons r rest ih =>
    have h1 : write_record fs path r path = some (content ++ record_line r) := by
      simp [write_record, h]
    have := ih (write_record fs path r) (content ++ record_line r) h1
    simp only [write_records, List.foldl_cons] at this ⊢
    rw [this]
    funext p
    by_cases hp : p = path
    · simp [hp, render, List.flatMap_cons]
    · simp [hp, write_record]

theorem write_records_fopen_w (fs : FileSystem) (path : List Nat) (records : List record) :
    write_records (fopen_w fs path) path records =
      fun p => if p = path then some (render records) else fs p := by
  rw [write_records_some (fopen_w fs path) path [] records (by simp [fopen_w])]
  funext p
  by_cases hp : p = path <;> simp [hp, fopen_w]

theorem written_map_write (path : List Nat) (records : List record) :
    written (records.map (Effect.write_record path)) = records := by
  induction records with
  | nil => rfl
  | cons r rest ih => simp [written, ih]

theorem delete_loop_eq (data : List record) (i k : Nat) :
    delete_loop data i (i + k) = data.eraseIdx k := by
  induction data generalizing i k with
  | nil => simp [delete_loop]
  | cons d rest ih =>
    cases k with
    | zero =>
      have e : ∀ (l : List record) (j : Nat), i < j → delete_loop l j i = l := by
        intro l
        induction l with
        | nil => intro j _; simp [delete_loop]
        | cons x l ihl =>
          intro j hj
          have : ¬ j = i := by omega
          simp [delete_loop, this, ihl (j + 1) (by omega)]
      simp [delete_loop, e rest (i + 1) (by omega)]
    | succ k =>
      have hne : ¬ i = i + (k + 1) := by omega
      have := ih (i + 1) k
      have e : i + 1 + k = i + (k + 1) := by omega
      rw [e] at this
      simp [delete_loop, hne, this]

theorem written_edit_loop (data : List record) (i k : Nat) (input_data : record) :
    written (edit_loop data i (i + k) input_data) = data.set k input_data := by
  induction data generalizing i k with
  | nil => simp [edit_loop, written]
  | cons d rest ih =>
    cases k with
    | zero =>
      have e : ∀ (l : List record) (j : Nat), i < j →
          written (edit_loop l j i input_data) = l := by
        intro l
        induction l with
        | nil => intro j _; simp [edit_loop, written]
        | cons x l ihl =>
          intro j hj
          have : ¬ j = i := by omega
          simp [edit_loop, written, this, ihl (j + 1) (by omega)]
      simp [edit_loop, written, e rest (i + 1) (by omega)]
    | succ k =>
      have hne : ¬ i = i + (k + 1) := by omega
      have := ih (i + 1) k
      have e : i + 1 + k = i + (k + 1) := by omega
      rw [e] at this
      simp [edit_loop, written, hne, this]

theorem written_append (a b : List Effect) : written (a ++ b) = written a ++ written b := by
  induction a with
  | nil => rfl
  | cons e rest ih => cases e <;> simp [written, ih]

theorem commit_records_written (fs : FileSystem) (file : FILE) (name : List Nat)
    (before loop after : List Effect) (rename_ok : Bool) (reopen : Option Nat)
    (hb : written before = []) (ha : written after = []) :
    written (commit_records fs file name before loop after rename_ok reopen).trace =
      written loop := by
  unfold commit_records
  cases rename_ok <;> simp [written_append, written, hb, ha]

theorem commit_records_fs_renamed (fs : FileSystem) (file : FILE) (name : List Nat)
    (before loop after : List Effect) (reopen : Option Nat) :
    (commit_records fs file name before loop after true reopen).fs (record_filepath name) =
      some (render (written loop)) := by
  simp [commit_records, rename_file, write_records_fopen_w]

theorem commit_records_fs_other (fs : FileSystem) (file : FILE) (name : List Nat)
    (before loop after : List Effect) (reopen : Option Nat) (p : List Nat)
    (hp : p ≠ temp_filepath) :
    (commit_records fs file name before loop after false reopen).fs p = fs p := by
  simp [commit_records, write_records_fopen_w, hp]

theorem commit_records_fs_temp (fs : FileSystem) (file : FILE) (name : List Nat)
    (before loop after : List Effect) (reopen : Option Nat) :
    (commit_records fs file name before loop after false reopen).fs temp_filepath =
      some (render (written loop)) := by
  simp [commit_records, write_records_fopen_w]

theorem find_insert_position_le (S : List record) (C : record) (key : sort_option)
    (dir : order_option) : find_insert_position S C key dir ≤ S.length := by
  induction S with
  | nil => simp [find_insert_position]
  | cons d rest ih =>
    simp only [find_insert_position, List.length_cons]
    split <;> omega

/-! ## The rewriting operations: the claims -/

/-- C13, as stated, fails for the working file `temp.txt`: it is stored under
the temporary file path, `fopen(temp_filepath, "w")` empties it, and after a
`delete_record` whose `rename` fails it holds Beta, Delta instead of Alpha,
Beta, Delta. -/
theorem rename_failure_changes_temp_txt :
    record_filepath temp_txt = temp_filepath ∧
      get_records_arr (read_file temp_fs ⟨temp_filepath, 3⟩) = [alpha, beta, delta] ∧
      (delete_record temp_fs (some ⟨temp_filepath, 3⟩) temp_txt (some 0) true false none).fs
          temp_filepath = some (render [beta, delta]) ∧
      (delete_record temp_fs (some ⟨temp_filepath, 3⟩) temp_txt (some 0) true false none).fs
          temp_filepath ≠ temp_fs temp_filepath := by
  decide

/-- C13, amended: when `rename` fails in `delete_record`, `edit_record`,
`order_records` or `insert_record`, the content stored under every path other
than the temporary file path is the same after the operation as before; this
covers the working file unless it is `temp.txt`. -/
theorem rename_failure_keeps_files (fs : FileSystem) (working_file : Option FILE)
    (working_file_name : List Nat) (choice : Option Nat)
    (order_choice : Option (sort_option × order_option)) (input_data : record)
    (temp_ok : Bool) (reopen : Option Nat) (p : List Nat) (hp : p ≠ temp_filepath) :
    (delete_record fs working_file working_file_name choice temp_ok false reopen).fs p = fs p ∧
      (edit_record fs working_file working_file_name choice input_data temp_ok false
        reopen).fs p = fs p ∧
      (order_records fs working_file working_file_name order_choice temp_ok false
        reopen).fs p = fs p ∧
      (insert_record fs working_file working_file_name input_data temp_ok false
        reopen).fs p = fs p := by
  refine ⟨?_, ?_, ?_, ?_⟩
  · unfold delete_record
    cases working_file with
    | none => rfl
    | some file =>
      simp only
      split
      · rfl
      · cases choice with
        | none => rfl
        | some i => cases temp_ok <;> simp [commit_records_fs_other _ _ _ _ _ _ _ _ hp]
  · unfold edit_record
    cases working_file with
    | none => rfl
    | some file =>
      simp only
      split
      · rfl
      · cases choice with
        | none => rfl
        | some i => cases temp_ok <;> simp [commit_records_fs_other _ _ _ _ _ _ _ _ hp]
  · unfold order_records
    cases working_file with
    | none => rfl
    | some file =>
      simp only
      split
      · rfl
      · cases order_choice with
        | none => rfl
        | some c => cases temp_ok <;> simp [commit_records_fs_other _ _ _ _ _ _ _ _ hp]
  · unfold insert_record
    cases working_file with
    | none => rfl
    | some file =>
      simp only
      split
      · rfl
      · cases check_sort_order (get_records_arr (read_file fs file)) with
        | none => rfl
        | some c => cases temp_ok <;> simp [commit_records_fs_other _ _ _ _ _ _ _ _ hp]

/-- C13 amended, at a concrete input: `data.txt` still holds Alpha, Beta,
Delta after a `delete_record` of row 0 whose `rename` fails. -/
theorem rename_failure_keeps_files_witness :
    data_txt_path ≠ temp_filepath ∧
      (delete_record sample_fs (some ⟨data_txt_path, 3⟩) data_txt (some 0) true false
        none).fs data_txt_path = sample_fs data_txt_path :=
  ⟨by decide,
    (rename_failure_keeps_files sample_fs (some ⟨data_txt_path, 3⟩) data_txt (some 0) none
      alpha true none data_txt_path (by decide)).1⟩

/-- C15: for a loaded sequence `data` and a chosen row `i` in range,
`delete_record` passes to `write_record` exactly `data` without its element
`i` (one record fewer, the rest unchanged and in order); this is the content of
the temporary file, and of the file under `filepath` after a successful
`rename`. -/
theorem delete_record_writes (fs : FileSystem) (file : FILE) (working_file_name : List Nat)
    (data : List record) (i : Nat) (rename_ok : Bool) (reopen : Option Nat)
    (hd : get_records_arr (read_file fs file) = data) (hi : i < data.length) :
    written (delete_record fs (some file) working_file_name (some i) true rename_ok
        reopen).trace = data.eraseIdx i ∧
      data.eraseIdx i = data.take i ++ data.drop (i + 1) ∧
      (data.eraseIdx i).length = data.length - 1 ∧
      (delete_record fs (some file) working_file_name (some i) true false reopen).fs
        temp_filepath = some (render (data.eraseIdx i)) ∧
      (delete_record fs (some file) working_file_name (some i) true true reopen).fs
        (record_filepath working_file_name) = some (render (data.eraseIdx i)) := by
  have hne : ¬ data.length = 0 := by omega
  have hl := delete_loop_eq data 0 i
  rw [Nat.zero_add] at hl
  refine ⟨?_, List.eraseIdx_eq_take_drop_succ data i, List.length_eraseIdx_of_lt hi, ?_, ?_⟩
  · simp only [delete_record, hd, hne, if_false, if_true]
    rw [commit_records_written _ _ _ _ _ _ _ _ (by simp [written]) (by simp [written]),
      written_map_write, hl]
  · simp only [delete_record, hd, hne, if_false, if_true]
    rw [commit_records_fs_temp, written_map_write, hl]
  · simp only [delete_record, hd, hne, if_false, if_true]
    rw [commit_records_fs_renamed, written_map_write, hl]

/-- C15, at a concrete input: deleting row 0 of the three-record file
`data.txt` writes records 1 and 2 in that order. -/
theorem delete_record_writes_witness :
    get_records_arr (read_file sample_fs ⟨data_txt_path, 3⟩) = [alpha, beta, delta] ∧
      0 < [alpha, beta, delta].length ∧
      written (delete_record sample_fs (some ⟨data_txt_path, 3⟩) data_txt (some 0) true true
        (some 4)).trace = [beta, delta] ∧
      (delete_record sample_fs (some ⟨data_txt_path, 3⟩) data_txt (some 0) true true
        (some 4)).fs (record_filepath data_txt) = some (render [beta, delta]) :=
  ⟨by decide, by decide,
    (delete_record_writes sample_fs ⟨data_txt_path, 3⟩ data_txt [alpha, beta, delta] 0 true
      (some 4) (by decide) (by decide)).1,
    (delete_record_writes sample_fs ⟨data_txt_path, 3⟩ data_txt [alpha, beta, delta] 0 true
      (some 4) (by decide) (by decide)).2.2.2.2⟩

/-- C16: for a loaded sequence `data` of at least one record on which
`check_sort_order` reports `(key, dir)`, and a new record `C`, with
`p = find_insert_position data C key dir`: `p` is at most the length, and
`insert_record` passes to `write_record` the first `p` records, then `C`, then
the remaining records; that is one record more, `C` once more than before, and
`data` again when the element at `p` is removed. This is the content under
`filepath` after a successful `rename`. -/
theorem insert_record_writes (fs : FileSystem) (file : FILE) (working_file_name : List Nat)
    (data : List record) (C : record) (key : sort_option) (dir : order_option)
    (rename_ok : Bool) (reopen : Option Nat)
    (hd : get_records_arr (read_file fs file) = data) (hn : 1 ≤ data.length)
    (hc : check_sort_order data = some (key, dir)) :
    find_insert_position data C key dir ≤ data.length ∧
      written (insert_record fs (some file) working_file_name C true rename_ok
          reopen).trace =
        data.take (find_insert_position data C key dir) ++
          C :: data.drop (find_insert_position data C key dir) ∧
      (written (insert_record fs (some file) working_file_name C true rename_ok
          reopen).trace).length = data.length + 1 ∧
      (written (insert_record fs (some file) working_file_name C true rename_ok
          reopen).trace).count C = data.count C + 1 ∧
      (written (insert_record fs (some file) working_file_name C true rename_ok
          reopen).trace).eraseIdx (find_insert_position data C key dir) = data ∧
      (insert_record fs (some file) working_file_name C true true reopen).fs
          (record_filepath working_file_name) =
        some (render (data.take (find_insert_position data C key dir) ++
          C :: data.drop (find_insert_position data C key dir))) := by
  have hne : ¬ data.length = 0 := by omega
  have hp := find_insert_position_le data C key dir
  have hl := insert_loop_eq data 0 (find_insert_position data C key dir) C hp
  rw [Nat.zero_add] at hl
  have hw : ∀ ok, written (insert_record fs (some file) working_file_name C true ok
      reopen).trace = data.take (find_insert_position data C key dir) ++
        C :: data.drop (find_insert_position data C key dir) := by
    intro ok
    simp only [insert_record, hd, hne, hc, if_false, if_true]
    rw [commit_records_written _ _ _ _ _ _ _ _ (by simp [written]) (by simp [written]),
      written_map_write, hl]
  refine ⟨hp, hw rename_ok, ?_, ?_, ?_, ?_⟩
  · rw [hw]
    simp only [List.length_append, List.length_cons, List.length_take, List.length_drop]
    omega
  · rw [hw, List.count_append, List.count_cons_self, ← Nat.add_assoc, ← List.count_append,
      List.take_append_drop]
  · rw [hw]
    have hlen : (data.take (find_insert_position data C key dir)).length =
        find_insert_position data C key dir := by
      simp [List.length_take, hp]
    rw [List.eraseIdx_append_of_length_le (by omega), hlen, Nat.sub_self]
    simp
  · simp only [insert_record, hd, hne, hc, if_false, if_true]
    rw [commit_records_fs_renamed, written_map_write, hl]

/-- C16, at a concrete input: `data.txt` holds Alpha, Beta, Delta, ordered by
(name, ascending); inserting the record Gamma writes it at the end. -/
theorem insert_record_writes_witness :
    get_records_arr (read_file sample_fs ⟨data_txt_path, 3⟩) = [alpha, beta, delta] ∧
      check_sort_order [alpha, beta, delta] = some (NAME_SORT, ASCENDING_ORDER) ∧
      find_insert_position [alpha, beta, delta] gamma NAME_SORT ASCENDING_ORDER = 3 ∧
      written (insert_record sample_fs (some ⟨data_txt_path, 3⟩) data_txt gamma true true
          (some 4)).trace =
        [alpha, beta, delta].take
            (find_insert_position [alpha, beta, delta] gamma NAME_SORT ASCENDING_ORDER) ++
          gamma :: [alpha, beta, delta].drop
            (find_insert_position [alpha, beta, delta] gamma NAME_SORT ASCENDING_ORDER) :=
  ⟨by decide, by decide, by decide,
    (insert_record_writes sample_fs ⟨data_txt_path, 3⟩ data_txt [alpha, beta, delta] gamma
      NAME_SORT ASCENDING_ORDER true (some 4) (by decide) (by decide) (by decide)).2.1⟩

/-- C17: for a loaded sequence `data`, a chosen row `i` in range and a new
record `R`, `edit_record` passes to `write_record` a sequence of the same
length that has `R` at index `i` and the record of `data` at every other
index. -/
theorem edit_record_writes (fs : FileSystem) (file : FILE) (working_file_name : List Nat)
    (data : List record) (i : Nat) (R : record) (rename_ok : Bool) (reopen : Option Nat)
    (hd : get_records_arr (read_file fs file) = data) (hi : i < data.length) :
    written (edit_record fs (some file) working_file_name (some i) R true rename_ok
        reopen).trace = data.set i R ∧
      (data.set i R).length = data.length ∧
      (data.set i R)[i]? = some R ∧
      (∀ j, j ≠ i → (data.set i R)[j]? = data[j]?) ∧
      (edit_record fs (some file) working_file_name (some i) R true true reopen).fs
        (record_filepath working_file_name) = some (render (data.set i R)) := by
  have hne : ¬ data.length = 0 := by omega
  have hl := written_edit_loop data 0 i R
  rw [Nat.zero_add] at hl
  refine ⟨?_, List.length_set .., ?_, ?_, ?_⟩
  · simp only [edit_record, hd, hne, if_false, if_true]
    rw [commit_records_written _ _ _ _ _ _ _ _ (by simp [written]) (by simp [written]), hl]
  · simp [List.getElem?_set, hi]
  · intro j hj
    rw [List.getElem?_set_ne (fun e => hj e.symm)]
  · simp only [edit_record, hd, hne, if_false, if_true]
    rw [commit_records_fs_renamed, hl]

/-- C17, at a concrete input: replacing row 1 of `data.txt` by Gamma writes
Alpha, Gamma, Delta. -/
theorem edit_record_writes_witness :
    get_records_arr (read_file sample_fs ⟨data_txt_path, 3⟩) = [alpha, beta, delta] ∧
      1 < [alpha, beta, delta].length ∧
      written (edit_record sample_fs (some ⟨data_txt_path, 3⟩) data_txt (some 1) gamma true
        true (some 4)).trace = [alpha, beta, delta].set 1 gamma :=
  ⟨by decide, by decide,
    (edit_record_writes sample_fs ⟨data_txt_path, 3⟩ data_txt [alpha, beta, delta] 1 gamma
      true (some 4) (by decide) (by decide)).1⟩

/-- C19: on a loaded sequence for which `check_sort_order` reports no
ordering, `insert_record` only prints that the records are not sorted: it asks
for no record, opens no temporary file, renames nothing, returns the stream it
was given and leaves every file as it was. -/
theorem insert_record_not_sorted (fs : FileSystem) (file : FILE)
    (working_file_name : List Nat) (input_data : record) (temp_ok rename_ok : Bool)
    (reopen : Option Nat)
    (hc : check_sort_order (get_records_arr (read_file fs file)) = none) :
    (insert_record fs (some file) working_file_name input_data temp_ok rename_ok
        reopen).trace = [.message .records_are_not_sorted] ∧
      (insert_record fs (some file) working_file_name input_data temp_ok rename_ok
        reopen).file = some file ∧
      (insert_record fs (some file) working_file_name input_data temp_ok rename_ok
        reopen).fs = fs := by
  have hne : ¬ (get_records_arr (read_file fs file)).length = 0 := by
    intro h0
    rw [List.length_eq_zero.1 h0] at hc
    exact absurd hc (by decide)
  simp [insert_record, hne, hc]

/-- C19, at a concrete input: `data.txt` holds Beta, Alpha, Delta, which no
candidate orders. -/
theorem insert_record_not_sorted_witness :
    check_sort_order (get_records_arr (read_file unsorted_fs ⟨data_txt_path, 3⟩)) = none ∧
      (insert_record unsorted_fs (some ⟨data_txt_path, 3⟩) data_txt gamma true true
        (some 4)).trace = [.message .records_are_not_sorted] :=
  ⟨by decide,
    (insert_record_not_sorted unsorted_fs ⟨data_txt_path, 3⟩ data_txt gamma true true
      (some 4) (by decide)).1⟩

/-! ## What `fscanf` reads from what `fprintf` wrote -/

theorem dec_digits_append (fuel n : Nat) (acc : List Nat) :
    dec_digits fuel n acc = dec_digits fuel n [] ++ acc := by
  induction fuel generalizing n acc with
  | zero => simp [dec_digits]
  | succ fuel ih =>
    simp only [dec_digits]
    split
    · simp
    · rw [ih (n / 10) ((48 + n % 10) :: acc), ih (n / 10) [48 + n % 10]]
      simp

theorem dec_digits_all (fuel n : Nat) : (dec_digits fuel n []).all isdigit = true := by
  induction fuel generalizing n with
  | zero => simp [dec_digits]
  | succ fuel ih =>
    simp only [dec_digits]
    split
    · rename_i h
      simp [isdigit]
      omega
    · rw [dec_digits_append, List.all_append, ih]
      have : n % 10 < 10 := Nat.mod_lt _ (by decide)
      simp [isdigit]
      omega

theorem dec_value_append (xs ys : List Nat) :
    dec_value (xs ++ ys) = ys.foldl (fun v c => 10 * v + (c - 48)) (dec_value xs) := by
  simp [dec_value, List.foldl_append]

theorem dec_value_dec_digits (fuel n : Nat) (h : n < fuel) :
    dec_value (dec_digits fuel n []) = n := by
  induction fuel generalizing n with
  | zero => omega
  | succ fuel ih =>
    simp only [dec_digits]
    split
    · simp [dec_value]
    · rename_i h10
      rw [dec_digits_append, dec_value_append, ih (n / 10) (by omega)]
      simp only [List.foldl_cons, List.foldl_nil]
      omega

theorem dec_digits_ne_nil (fuel n : Nat) (h : n < fuel) : dec_digits fuel n [] ≠ [] := by
  cases fuel with
  | zero => omega
  | succ fuel =>
    simp only [dec_digits]
    split
    · simp
    · rw [dec_digits_append]
      simp

theorem print_nat_all (n : Nat) : (print_nat n).all isdigit = true := dec_digits_all _ _

theorem print_nat_value (n : Nat) : dec_value (print_nat n) = n :=
  dec_value_dec_digits _ _ (by omega)

theorem print_nat_cons (n : Nat) :
    ∃ c ds, print_nat n = c :: ds ∧ isdigit c = true := by
  have hne : print_nat n ≠ [] := dec_digits_ne_nil _ _ (by omega)
  have hall := print_nat_all n
  match hp : print_nat n with
  | [] => exact absurd hp hne
  | c :: ds =>
    rw [hp] at hall
    simp only [List.all_cons, Bool.and_eq_true] at hall
    exact ⟨c, ds, rfl, hall.1⟩

theorem print_frac6_all (f : Nat) : (print_frac6 f).all isdigit = true := by
  have h1 : f / 100000 % 10 < 10 := Nat.mod_lt _ (by decide)
  have h2 : f / 10000 % 10 < 10 := Nat.mod_lt _ (by decide)
  have h3 : f / 1000 % 10 < 10 := Nat.mod_lt _ (by decide)
  have h4 : f / 100 % 10 < 10 := Nat.mod_lt _ (by decide)
  have h5 : f / 10 % 10 < 10 := Nat.mod_lt _ (by decide)
  have h6 : f % 10 < 10 := Nat.mod_lt _ (by decide)
  simp [print_frac6, isdigit]
  omega

theorem print_frac6_value (v f : Nat) (h : f < 1000000) :
    (print_frac6 f).foldl (fun v c => 10 * v + (c - 48)) v = v * 1000000 + f := by
  simp only [print_frac6, List.foldl_cons, List.foldl_nil]
  omega

theorem takeWhile_digits (ds rest : List Nat) (c : Nat) (hd : ds.all isdigit = true)
    (hc : isdigit c = false) :
    (ds ++ c :: rest).takeWhile isdigit = ds ∧ (ds ++ c :: rest).dropWhile isdigit = c :: rest := by
  induction ds with
  | nil => simp [List.takeWhile, List.dropWhile, hc]
  | cons d ds ih =>
    simp only [List.all_cons, Bool.and_eq_true] at hd
    simp [List.takeWhile, List.dropWhile, hd.1, ih hd.2]

theorem scan_decimal_printed (a f : Nat) (rest : List Nat) (hf : f < 1000000) :
    scan_decimal (print_nat a ++ 46 :: (print_frac6 f ++ 32 :: rest)) =
      some (nearest_double (a * 1000000 + f) 1000000, 32 :: rest) := by
  have h1 := takeWhile_digits (print_nat a) (print_frac6 f ++ 32 :: rest) 46
    (print_nat_all a) (by decide)
  have h2 := takeWhile_digits (print_frac6 f) rest 32 (print_frac6_all f) (by decide)
  have hne : print_nat a ≠ [] := dec_digits_ne_nil _ _ (by omega)
  have hlen : (print_frac6 f).length = 6 := rfl
  have hv : dec_value (print_nat a ++ print_frac6 f) = a * 1000000 + f := by
    rw [dec_value_append, print_nat_value, print_frac6_value _ _ hf]
  simp only [scan_decimal, h1.1, h1.2, h2.1, h2.2, hne, false_and, if_false, hlen, hv]
  norm_num

theorem scan_lf_unsigned_digit (c : Nat) (tl : List Nat) (hc : isdigit c = true) :
    scan_lf_unsigned (c :: tl) = scan_decimal (c :: tl) := by
  unfold scan_lf_unsigned
  split
  · rename_i h
    injection h with h _
    subst h
    exact absurd hc (by decide)
  · rename_i h
    injection h with h _
    subst h
    exact absurd hc (by decide)
  · rfl

theorem scan_lf_digit (c : Nat) (tl : List Nat) (hc : isdigit c = true) :
    scan_lf (c :: tl) = scan_lf_unsigned (c :: tl) := by
  unfold scan_lf
  split
  · rename_i h
    injection h with h _
    subst h
    exact absurd hc (by decide)
  · rename_i h
    injection h with h _
    subst h
    exact absurd hc (by decide)
  · rfl

theorem scan_lf_printed (a : Double) (rest : List Nat) :
    scan_lf (print_lf a ++ 32 :: rest) = some (lf_round a, 32 :: rest) := by
  cases a with
  | nan => rfl
  | ninf => rfl
  | pinf => rfl
  | fin q =>
    have hm : round_micro q / 1000000 * 1000000 + round_micro q % 1000000 = round_micro q :=
      Nat.div_add_mod' _ _
    have hf : round_micro q % 1000000 < 1000000 := Nat.mod_lt _ (by decide)
    have hd := scan_decimal_printed (round_micro q / 1000000) (round_micro q % 1000000) rest hf
    rw [hm] at hd
    obtain ⟨c, ds, hp, hc⟩ := print_nat_cons (round_micro q / 1000000)
    have hu : scan_lf_unsigned (print_nat (round_micro q / 1000000) ++
        46 :: (print_frac6 (round_micro q % 1000000) ++ 32 :: rest)) =
        some (nearest_double (round_micro q) 1000000, 32 :: rest) := by
      rw [hp, List.cons_append, scan_lf_unsigned_digit c _ hc, ← List.cons_append, ← hp, hd]
    by_cases hq : q < 0
    · simp only [print_lf, hq, if_true, List.cons_append, List.nil_append, List.append_assoc,
        lf_round]
      simp only [scan_lf, hu, Option.map_some']
    · simp only [print_lf, hq, if_false, List.nil_append, List.append_assoc,
        List.cons_append, lf_round]
      have := hu
      rw [hp, List.cons_append] at this ⊢
      rw [scan_lf_digit c _ hc, this]

theorem scan_i_digit (c : Nat) (tl : List Nat) (hc : isdigit c = true) :
    scan_i (c :: tl) = (scan_i_unsigned (c :: tl)).map fun r => ((r.1 : Int), r.2) := by
  unfold scan_i
  split
  · rename_i h
    injection h with h _
    subst h
    exact absurd hc (by decide)
  · rename_i h
    injection h with h _
    subst h
    exact absurd hc (by decide)
  · rfl

theorem scan_i_unsigned_printed (n : Nat) (rest : List Nat) :
    scan_i_unsigned (print_nat n ++ 10 :: rest) = some (n, 10 :: rest) := by
  have h1 := takeWhile_digits (print_nat n) rest 10 (print_nat_all n) (by decide)
  have hne : print_nat n ≠ [] := dec_digits_ne_nil _ _ (by omega)
  simp [scan_i_unsigned, h1.1, h1.2, hne, print_nat_value]

theorem scan_i_printed (p : Int) (rest : List Nat) :
    scan_i (print_i p ++ 10 :: rest) = some (p, 10 :: rest) := by
  by_cases hp : p < 0
  · simp only [print_i, hp, if_true, List.cons_append, scan_i, scan_i_unsigned_printed,
      Option.map_some']
    congr 2
    omega
  · simp only [print_i, hp, if_false]
    obtain ⟨c, ds, hpn, hc⟩ := print_nat_cons p.natAbs
    have := scan_i_unsigned_printed p.natAbs rest
    rw [hpn, List.cons_append] at this ⊢
    rw [scan_i_digit c _ hc, this]
    simp only [Option.map_some']
    congr 2
    omega

theorem takeWhile_run (p : Nat → Bool) (ds rest : List Nat) (c : Nat)
    (hd : ds.all p = true) (hc : p c = false) :
    (ds ++ c :: rest).takeWhile p = ds ∧ (ds ++ c :: rest).dropWhile p = c :: rest := by
  induction ds with
  | nil => simp [List.takeWhile, List.dropWhile, hc]
  | cons d ds ih =>
    simp only [List.all_cons, Bool.and_eq_true] at hd
    simp [List.takeWhile, List.dropWhile, hd.1, ih hd.2]

theorem dropWhile_isspace_skip (pre tl : List Nat) (c : Nat) (hpre : pre.all isspace = true)
    (hc : isspace c = false) : (pre ++ c :: tl).dropWhile isspace = c :: tl :=
  (takeWhile_run isspace pre tl c hpre hc).2

theorem cstr_all_ne_zero (l : List Nat) : (cstr l).all (fun c => c != 0) = true := by
  unfold cstr
  rw [List.all_eq_true]
  intro c hc
  exact List.mem_takeWhile_imp hc (p := fun c => c != 0)

theorem cstr_cstr (l : List Nat) : cstr (cstr l) = cstr l := by
  apply cstr_of_no_nul
  intro c hc
  have := List.all_eq_true.1 (cstr_all_ne_zero l) c hc
  simpa using this

theorem name_ok_cons (nm : List Nat) (h : name_ok nm = true) :
    ∃ c tl, nm = c :: tl ∧ isspace c = false ∧ nm.all (fun b => !isspace b) = true := by
  simp only [name_ok, Bool.and_eq_true, decide_eq_true_eq, List.all_eq_true] at h
  match nm, h with
  | c :: tl, h =>
    refine ⟨c, tl, rfl, ?_, ?_⟩
    · have := (h.2 c (List.mem_cons_self _ _)).2
      simpa using this
    · rw [List.all_eq_true]
      intro b hb
      exact (h.2 b hb).2

theorem name_ok_no_nul (nm : List Nat) (h : name_ok nm = true) : cstr nm = nm := by
  apply cstr_of_no_nul
  simp only [name_ok, Bool.and_eq_true, decide_eq_true_eq, List.all_eq_true] at h
  intro c hc
  have := (h.2 c hc).1
  simpa using this

theorem scan_s_name (pre nm rest : List Nat) (hpre : pre.all isspace = true)
    (hnm : name_ok nm = true) :
    scan_s (pre ++ (nm ++ 32 :: rest)) = some (nm, 32 :: rest) := by
  obtain ⟨c, tl, rfl, hc, hall⟩ := name_ok_cons nm hnm
  have h1 : (pre ++ (c :: tl ++ 32 :: rest)).dropWhile isspace = c :: (tl ++ 32 :: rest) := by
    rw [List.cons_append]
    exact dropWhile_isspace_skip pre _ c hpre hc
  have h2 := takeWhile_run (fun b => !isspace b) (c :: tl) rest 32 hall (by decide)
  simp only [List.cons_append] at h2
  simp only [scan_s, h1, h2.1, h2.2]

theorem print_lf_cons (a : Double) :
    ∃ c tl, print_lf a = c :: tl ∧ isspace c = false := by
  cases a with
  | nan => exact ⟨_, _, rfl, by decide⟩
  | ninf => exact ⟨_, _, rfl, by decide⟩
  | pinf => exact ⟨_, _, rfl, by decide⟩
  | fin q =>
    by_cases hq : q < 0
    · exact ⟨45, print_nat (round_micro q / 1000000) ++
        46 :: print_frac6 (round_micro q % 1000000), by simp [print_lf, hq], by decide⟩
    · obtain ⟨c, ds, hp, hc⟩ := print_nat_cons (round_micro q / 1000000)
      refine ⟨c, ds ++ 46 :: print_frac6 (round_micro q % 1000000), by simp [print_lf, hq, hp], ?_⟩
      simp only [isdigit, Bool.and_eq_true, decide_eq_true_eq] at hc
      simp [isspace]
      omega

theorem print_i_cons (p : Int) :
    ∃ c tl, print_i p = c :: tl ∧ isspace c = false := by
  by_cases hp : p < 0
  · exact ⟨45, print_nat p.natAbs, by simp [print_i, hp], by decide⟩
  · obtain ⟨c, ds, hpn, hc⟩ := print_nat_cons p.natAbs
    refine ⟨c, ds, by simp [print_i, hp, hpn], ?_⟩
    simp only [isdigit, Bool.and_eq_true, decide_eq_true_eq] at hc
    simp [isspace]
    omega

theorem fscanf_record_line (pre rest : List Nat) (vars r : record)
    (hpre : pre.all isspace = true) (hname : name_ok (cstr r.region_name) = true) :
    fscanf_record (pre ++ (record_line r ++ rest)) vars =
      some (⟨cstr r.region_name, lf_round r.region_area, r.region_population⟩, 10 :: rest) := by
  have e : record_line r ++ rest = cstr r.region_name ++ 32 :: (print_lf r.region_area ++
      32 :: (print_i r.region_population ++ 10 :: rest)) := by
    simp [record_line]
  obtain ⟨c1, t1, h1, hc1⟩ := print_lf_cons r.region_area
  obtain ⟨c2, t2, h2, hc2⟩ := print_i_cons r.region_population
  have d1 : (32 :: (print_lf r.region_area ++ 32 :: (print_i r.region_population ++
      10 :: rest))).dropWhile isspace =
      print_lf r.region_area ++ 32 :: (print_i r.region_population ++ 10 :: rest) := by
    rw [h1]
    exact dropWhile_isspace_skip [32] _ c1 (by decide) hc1
  have d2 : (32 :: (print_i r.region_population ++ 10 :: rest)).dropWhile isspace =
      print_i r.region_population ++ 10 :: rest := by
    rw [h2]
    exact dropWhile_isspace_skip [32] _ c2 (by decide) hc2
  rw [e]
  simp only [fscanf_record, scan_s_name pre _ _ hpre hname, d1, scan_lf_printed, d2,
    scan_i_printed]

theorem get_records_loop_render (S : List record) (fuel : Nat) (pre : List Nat) (vars : record)
    (hfuel : S.length ≤ fuel) (hpre : pre.all isspace = true)
    (hS : ∀ r ∈ S, name_ok (cstr r.region_name) = true) :
    get_records_loop fuel (pre ++ render S) vars = S.map reload := by
  induction S generalizing fuel pre vars with
  | nil =>
    have hnone : fscanf_record pre vars = none := by
      have : pre.dropWhile isspace = [] := by
        rw [List.dropWhile_eq_nil_iff]
        exact fun x hx => List.all_eq_true.1 hpre x hx
      simp [fscanf_record, scan_s, this]
    cases fuel with
    | zero => rfl
    | succ fuel => simp [render, get_records_loop, hnone]
  | cons r S ih =>
    cases fuel with
    | zero => simp at hfuel
    | succ fuel =>
      have hr := hS r (List.mem_cons_self _ _)
      have e : render (r :: S) = record_line r ++ render S := by
        simp [render, List.flatMap_cons]
      rw [e, get_records_loop, fscanf_record_line pre _ vars r hpre hr]
      have := ih fuel [10] ⟨cstr r.region_name, lf_round r.region_area, r.region_population⟩
        (by simpa using hfuel) (by decide) (fun x hx => hS x (List.mem_cons_of_mem _ hx))
      simp only [List.singleton_append] at this
      simp only [this, List.map_cons, reload, cstr_cstr]

theorem render_length (S : List record) : S.length ≤ (render S).length := by
  induction S with
  | nil => simp
  | cons r S ih =>
    have e : render (r :: S) = record_line r ++ render S := by
      simp [render, List.flatMap_cons]
    have : 1 ≤ (record_line r).length := by
      simp only [record_line, List.length_append, List.length_cons]
      omega
    rw [e, List.length_append, List.length_cons]
    omega

theorem get_records_arr_render (S : List record)
    (hS : ∀ r ∈ S, name_ok (cstr r.region_name) = true) :
    get_records_arr (render S) = S.map reload := by
  have := get_records_loop_render S (render S).length [] ⟨[], .fin 0, 0⟩ (render_length S)
    (by decide) hS
  simpa [get_records_arr] using this

theorem bit_length_fuel_spec (fuel : Nat) : ∀ n, n ≤ fuel →
    n < 2 ^ bit_length_fuel fuel n ∧ (n ≠ 0 → 2 ^ bit_length_fuel fuel n ≤ 2 * n) := by
  induction fuel with
  | zero =>
    intro n hn
    have : n = 0 := by omega
    subst this
    simp [bit_length_fuel]
  | succ fuel ih =>
    intro n hn
    unfold bit_length_fuel
    by_cases h0 : n = 0
    · subst h0
      simp
    · rw [if_neg h0]
      have h2 := ih (n / 2) (by omega)
      rw [pow_succ]
      refine ⟨by omega, fun _ => ?_⟩
      by_cases h1 : n / 2 = 0
      · have : n = 1 := by omega
        subst this
        simp [bit_length_fuel]
        cases fuel <;> simp [bit_length_fuel]
      · have := h2.2 h1
        omega

theorem lt_pow_bit_length (n : Nat) : n < 2 ^ bit_length n :=
  (bit_length_fuel_spec n n (le_refl n)).1

theorem pow_bit_length_le (n : Nat) (h : n ≠ 0) : 2 ^ bit_length n ≤ 2 * n :=
  (bit_length_fuel_spec n n (le_refl n)).2 h

theorem binary_exponent_le (n d t : Nat) (hn : n ≠ 0) (h : n < 2 ^ (t + 1) * d) :
    binary_exponent n d ≤ t := by
  have hbn := pow_bit_length_le n hn
  have hbd := lt_pow_bit_length d
  have hd : 0 < d := by
    rcases Nat.eq_zero_or_pos d with h0 | h0
    · subst h0; simp at h
    · exact h0
  -- bit_length n ≤ t + 1 + bit_length d
  have hb : bit_length n ≤ t + 1 + bit_length d := by
    by_contra hc
    have h1 : 2 ^ (t + 2 + bit_length d) ≤ 2 ^ bit_length n :=
      Nat.pow_le_pow_right (by decide) (by omega)
    have h2 : 2 * (2 ^ (t + 1) * d) < 2 ^ (t + 2 + bit_length d) := by
      have : 2 ^ (t + 2 + bit_length d) = 2 * (2 ^ (t + 1) * 2 ^ bit_length d) := by
        rw [show t + 2 + bit_length d = (t + 1 + bit_length d) + 1 from by omega, pow_succ,
          pow_add]
        ring
      rw [this]
      have := Nat.mul_lt_mul_of_pos_left hbd (Nat.pow_pos (n := t + 1) (by decide : 0 < 2))
      omega
    omega
  unfold binary_exponent
  simp only
  split
  · rename_i htest
    by_contra hc
    have hge : (t : Int) + 1 ≤ (bit_length n : Int) - (bit_length d : Int) := by omega
    have e1 : ((bit_length n : Int) - (bit_length d : Int)).toNat = bit_length n - bit_length d := by
      omega
    have e2 : (-((bit_length n : Int) - (bit_length d : Int))).toNat = 0 := by omega
    rw [e1, e2, pow_zero, mul_one] at htest
    have h1 : 2 ^ (t + 1) ≤ 2 ^ (bit_length n - bit_length d) :=
      Nat.pow_le_pow_right (by decide) (by omega)
    have h2 : d * 2 ^ (t + 1) ≤ d * 2 ^ (bit_length n - bit_length d) :=
      Nat.mul_le_mul_left d h1
    have h3 : d * 2 ^ (t + 1) = 2 ^ (t + 1) * d := Nat.mul_comm _ _
    omega
  · omega

theorem div_round_even_err (n d : Nat) (hd : 0 < d) :
    2 * (div_round_even n d * d) ≤ 2 * n + d ∧ 2 * n ≤ 2 * (div_round_even n d * d) + d := by
  have hdm := Nat.div_add_mod n d
  have hr := Nat.mod_lt n hd
  have hc : n / d * d = d * (n / d) := Nat.mul_comm _ _
  unfold div_round_even
  simp only
  split
  · rename_i hb
    rw [Nat.add_mul, Nat.one_mul]
    omega
  · rename_i hb
    omega

theorem div_round_even_near (n d k : Nat) (hd : 0 < d) (h1 : 2 * n < 2 * (k * d) + d)
    (h2 : 2 * (k * d) < 2 * n + d) : div_round_even n d = k := by
  have hdm := Nat.div_add_mod n d
  have hr := Nat.mod_lt n hd
  have hc : d * (n / d) = n / d * d := Nat.mul_comm _ _
  have hf : n / d = k ∨ n / d + 1 = k := by
    rcases Nat.lt_trichotomy (n / d) k with hlt | heq | hgt
    · right
      by_contra hne
      have : (n / d + 2) * d ≤ k * d := Nat.mul_le_mul_right d (by omega)
      rw [Nat.add_mul] at this
      omega
    · exact Or.inl heq
    · exfalso
      have : (k + 1) * d ≤ n / d * d := Nat.mul_le_mul_right d (by omega)
      rw [Nat.add_mul] at this
      omega
  unfold div_round_even
  simp only
  rcases hf with hf | hf
  · rw [hf] at hdm hc ⊢
    rw [if_neg]
    omega
  · have e : k * d = n / d * d + d := by rw [← hf, Nat.add_mul, Nat.one_mul]
    rw [if_pos]
    · exact hf
    · left
      omega

theorem round_micro_near (q : ℚ) (k : Nat) (h0 : 0 ≤ q)
    (h1 : 2 * (q * 1000000) < 2 * k + 1) (h2 : 2 * (k : ℚ) < 2 * (q * 1000000) + 1) :
    round_micro q = k := by
  have hden : 0 < q.den := q.den_pos
  have hdq : (0 : ℚ) < q.den := by exact_mod_cast hden
  have hnum : ((q.num.natAbs : Int)) = q.num := Int.natAbs_of_nonneg (Rat.num_nonneg.2 h0)
  have hq : q = (q.num.natAbs : ℚ) / (q.den : ℚ) := by
    have h := (Rat.num_div_den q).symm
    rw [← hnum, Int.cast_natCast] at h
    exact h
  have e : round_micro q = div_round_even (q.num.natAbs * 1000000) q.den := rfl
  rw [e]
  apply div_round_even_near _ _ _ hden
  · have : (2 * (q.num.natAbs * 1000000) : ℚ) < 2 * (k * q.den) + q.den := by
      rw [hq] at h1
      have := mul_lt_mul_of_pos_right h1 hdq
      have e2 : 2 * ((q.num.natAbs : ℚ) / (q.den : ℚ) * 1000000) * (q.den : ℚ) =
          2 * (q.num.natAbs * 1000000) := by
        field_simp
      rw [e2] at this
      linarith
    exact_mod_cast this
  · have : (2 * (k * q.den) : ℚ) < 2 * (q.num.natAbs * 1000000) + q.den := by
      rw [hq] at h2
      have := mul_lt_mul_of_pos_right h2 hdq
      have e2 : (2 * ((q.num.natAbs : ℚ) / (q.den : ℚ) * 1000000) + 1) * (q.den : ℚ) =
          2 * (q.num.natAbs * 1000000) + q.den := by
        field_simp
      rw [e2] at this
      linarith
    exact_mod_cast this

theorem nearest_double_micro (k : Nat) (hk : k ≤ 1000000000000000) :
    ∃ q : ℚ, nearest_double k 1000000 = .fin q ∧ 0 ≤ q ∧ round_micro q = k := by
  by_cases h0 : k = 0
  · subst h0
    exact ⟨0, rfl, le_refl _, by decide⟩
  · have he : binary_exponent k 1000000 ≤ 29 := by
      have := binary_exponent_le k 1000000 29 h0 (by norm_num; omega)
      exact_mod_cast this
    have he2 : max (binary_exponent k 1000000) (-1022) ≤ 29 := max_le he (by decide)
    generalize hE : max (binary_exponent k 1000000) (-1022) = e at he2
    have hs1 : (-(52 - e)).toNat = 0 := by omega
    have hs2 : 23 ≤ (52 - e).toNat := by omega
    generalize hS : (52 - e).toNat = s at hs2
    have hnd : nearest_double k 1000000 =
        .fin (mkRat (div_round_even (k * 2 ^ s) 1000000 : Nat) (2 ^ s)) := by
      unfold nearest_double
      simp only [hE, hS, hs1, pow_zero, mul_one, if_neg h0]
      rw [if_neg]
      omega
    have herr := div_round_even_err (k * 2 ^ s) 1000000 (by decide)
    generalize div_round_even (k * 2 ^ s) 1000000 = m at hnd herr
    have hpow : 2 ^ 23 ≤ 2 ^ s := Nat.pow_le_pow_right (by decide) hs2
    have hp : (0 : ℚ) < 2 ^ s := by positivity
    have hv : mkRat (m : Nat) (2 ^ s) = (m : ℚ) / 2 ^ s := by
      rw [Rat.mkRat_eq_div]
      push_cast
      rfl
    refine ⟨_, hnd, ?_, ?_⟩
    · rw [hv]
      positivity
    · apply round_micro_near
      · rw [hv]
        positivity
      · rw [hv]
        have e1 : (2 * ((m : ℚ) / 2 ^ s * 1000000)) = (2 * (m * 1000000)) / 2 ^ s := by
          field_simp
        rw [e1, div_lt_iff₀ hp]
        have : 2 * (m * 1000000) < (2 * k + 1) * 2 ^ s := by
          have := herr.1
          nlinarith
        exact_mod_cast this
      · rw [hv]
        have e1 : (2 * ((m : ℚ) / 2 ^ s * 1000000)) + 1 = (2 * (m * 1000000) + 2 ^ s) / 2 ^ s := by
          field_simp
        rw [e1, lt_div_iff₀ hp]
        have : 2 * k * 2 ^ s < 2 * (m * 1000000) + 2 ^ s := by
          have := herr.2
          nlinarith
        exact_mod_cast this

theorem lf_round_nearest_double (k : Nat) (hk : k ≤ 1000000000000000) :
    lf_round (nearest_double k 1000000) = nearest_double k 1000000 := by
  obtain ⟨q, hq, h0, hm⟩ := nearest_double_micro k hk
  rw [hq]
  simp only [lf_round, if_neg (not_lt.2 h0), hm, hq]

theorem two_zpow_toNat (s : Int) : (2 : ℚ) ^ s = 2 ^ s.toNat / 2 ^ (-s).toNat := by
  rcases le_total 0 s with h | h
  · have e1 : (-s).toNat = 0 := by omega
    have e2 : s = (s.toNat : Int) := by omega
    rw [e1, pow_zero, div_one]
    conv_lhs => rw [e2]
    rw [zpow_natCast]
  · have e1 : s.toNat = 0 := by omega
    have e2 : s = -((-s).toNat : Int) := by omega
    rw [e1, pow_zero]
    conv_lhs => rw [e2]
    rw [zpow_neg, zpow_natCast, one_div]

/-- The binary exponent `e` of `n / d` satisfies `2^e ≤ n / d < 2^(e + 1)`. -/
theorem binary_exponent_spec (n d : Nat) (hn : n ≠ 0) (hd : d ≠ 0) :
    (2 : ℚ) ^ binary_exponent n d ≤ (n : ℚ) / d ∧
      (n : ℚ) / d < 2 ^ (binary_exponent n d + 1) := by
  have hdq : (0 : ℚ) < d := by exact_mod_cast Nat.pos_of_ne_zero hd
  have hnq : (0 : ℚ) < n := by exact_mod_cast Nat.pos_of_ne_zero hn
  have h1 : ((2 : ℚ) ^ bit_length n) ≤ 2 * n := by exact_mod_cast pow_bit_length_le n hn
  have h2 : (n : ℚ) < 2 ^ bit_length n := by exact_mod_cast lt_pow_bit_length n
  have h3 : ((2 : ℚ) ^ bit_length d) ≤ 2 * d := by exact_mod_cast pow_bit_length_le d hd
  have h4 : (d : ℚ) < 2 ^ bit_length d := by exact_mod_cast lt_pow_bit_length d
  have hpn : (0 : ℚ) < 2 ^ bit_length n := by positivity
  have hpd : (0 : ℚ) < 2 ^ bit_length d := by positivity
  have he0 : (2 : ℚ) ^ ((bit_length n : Int) - (bit_length d : Int)) =
      2 ^ bit_length n / 2 ^ bit_length d := by
    rw [zpow_sub₀ (by norm_num), zpow_natCast, zpow_natCast]
  unfold binary_exponent
  simp only
  split
  · rename_i htest
    constructor
    · rw [two_zpow_toNat, div_le_div_iff₀ (by positivity) hdq]
      have : ((d * 2 ^ ((bit_length n : Int) - (bit_length d : Int)).toNat : Nat) : ℚ) ≤
          ((n * 2 ^ (-((bit_length n : Int) - (bit_length d : Int))).toNat : Nat) : ℚ) := by
        exact_mod_cast htest
      push_cast at this
      linarith
    · have e : (2 : ℚ) ^ ((bit_length n : Int) - (bit_length d : Int) + 1) =
          (2 * 2 ^ bit_length n) / 2 ^ bit_length d := by
        rw [zpow_add₀ (by norm_num), he0, zpow_one]
        ring
      rw [e, div_lt_div_iff₀ hdq hpd]
      nlinarith [mul_lt_mul_of_pos_right h2 hpd, mul_le_mul_of_nonneg_left h3 hpn.le]
  · rename_i htest
    constructor
    · have e : (2 : ℚ) ^ ((bit_length n : Int) - (bit_length d : Int) - 1) =
          2 ^ bit_length n / (2 * 2 ^ bit_length d) := by
        rw [zpow_sub₀ (by norm_num), he0, zpow_one]
        field_simp
        ring
      rw [e, div_le_div_iff₀ (by positivity) hdq]
      nlinarith [mul_le_mul_of_nonneg_right h1 hdq.le, mul_lt_mul_of_pos_left h4 hnq]
    · rw [sub_add_cancel, two_zpow_toNat, div_lt_div_iff₀ hdq (by positivity)]
      have : ((n * 2 ^ (-((bit_length n : Int) - (bit_length d : Int))).toNat : Nat) : ℚ) <
          ((d * 2 ^ ((bit_length n : Int) - (bit_length d : Int)).toNat : Nat) : ℚ) := by
        exact_mod_cast not_le.1 htest
      push_cast at this
      linarith


/-- The value `nearest_double` returns for a positive `n / d` is binary64
rounding to nearest: either the infinity, for a number of at least
`2^1024 - 2^970`, or a value `m * 2^(e - 52)` with `e` from -1022 to 1023 and a
significand `m` of 53 bits (`2^52 ≤ m` unless `e = -1022`; `m = 2^53` is the
next power of two) that is within half a unit in the last place of `n / d`. -/
theorem nearest_double_spec (n d : Nat) (hn : n ≠ 0) (hd : d ≠ 0) :
    (nearest_double n d = .pinf ∧ (2 : ℚ) ^ 1024 - 2 ^ 970 ≤ (n : ℚ) / d) ∨
      ∃ (m : Nat) (e : Int), -1022 ≤ e ∧ e ≤ 1023 ∧ (e = -1022 ∨ 2 ^ 52 ≤ m) ∧ m ≤ 2 ^ 53 ∧
        ¬ (e = 1023 ∧ 2 ^ 53 ≤ m) ∧
        nearest_double n d = .fin (m * 2 ^ (e - 52)) ∧
        |(m : ℚ) * 2 ^ (e - 52) - (n : ℚ) / d| ≤ 2 ^ (e - 53) := by
  obtain ⟨hlo, hhi⟩ := binary_exponent_spec n d hn hd
  have hdq : (0 : ℚ) < d := by exact_mod_cast Nat.pos_of_ne_zero hd
  have hE : binary_exponent n d ≤ max (binary_exponent n d) (-1022) := le_max_left _ _
  have hE2 : (-1022 : Int) ≤ max (binary_exponent n d) (-1022) := le_max_right _ _
  have hE3 : 1023 < max (binary_exponent n d) (-1022) →
      max (binary_exponent n d) (-1022) = binary_exponent n d := by
    intro h
    apply max_eq_left
    rcases le_total (binary_exponent n d) (-1022) with h1 | h1
    · rw [max_eq_right h1] at h
      omega
    · exact h1
  have hE4 : max (binary_exponent n d) (-1022) = -1022 ∨
      max (binary_exponent n d) (-1022) = binary_exponent n d := by
    rcases le_total (binary_exponent n d) (-1022) with h1 | h1
    · exact Or.inl (max_eq_right h1)
    · exact Or.inr (max_eq_left h1)
  have hnd : nearest_double n d =
      if 1023 < max (binary_exponent n d) (-1022) ∨
          (max (binary_exponent n d) (-1022) = 1023 ∧ 2 ^ 53 ≤
            div_round_even (n * 2 ^ (52 - max (binary_exponent n d) (-1022)).toNat)
              (d * 2 ^ (-(52 - max (binary_exponent n d) (-1022))).toNat))
      then .pinf
      else .fin (mkRat (div_round_even
          (n * 2 ^ (52 - max (binary_exponent n d) (-1022)).toNat)
          (d * 2 ^ (-(52 - max (binary_exponent n d) (-1022))).toNat) *
            2 ^ (-(52 - max (binary_exponent n d) (-1022))).toNat : Nat)
          (2 ^ (52 - max (binary_exponent n d) (-1022)).toNat)) := by
    unfold nearest_double
    rw [if_neg hn]
  generalize max (binary_exponent n d) (-1022) = e at hE hE2 hE3 hE4 hnd
  generalize binary_exponent n d = E at hlo hhi hE hE3 hE4
  have hs := two_zpow_toNat (52 - e)
  have hD : 0 < d * 2 ^ (-(52 - e)).toNat := Nat.mul_pos (Nat.pos_of_ne_zero hd) (by positivity)
  have herr := div_round_even_err (n * 2 ^ (52 - e).toNat) (d * 2 ^ (-(52 - e)).toNat) hD
  generalize div_round_even (n * 2 ^ (52 - e).toNat) (d * 2 ^ (-(52 - e)).toNat) = m at hnd herr
  generalize (52 - e).toNat = a at hs hnd herr
  generalize (-(52 - e)).toNat = b at hs hnd herr hD
  have hpa : (0 : ℚ) < 2 ^ a := by positivity
  have hpb : (0 : ℚ) < 2 ^ b := by positivity
  have ht : (0 : ℚ) < 2 ^ (52 - e) := by positivity
  have hx : (n : ℚ) = (n : ℚ) / d * d := by field_simp
  have ha : (2 : ℚ) ^ a = 2 ^ (52 - e) * 2 ^ b := by rw [hs]; field_simp
  have h1 : (2 * (m * (d * 2 ^ b)) : ℚ) ≤ 2 * (n * 2 ^ a) + d * 2 ^ b := by
    exact_mod_cast herr.1
  have h2 : (2 * (n * 2 ^ a) : ℚ) ≤ 2 * (m * (d * 2 ^ b)) + d * 2 ^ b := by
    exact_mod_cast herr.2
  generalize (n : ℚ) / d = x at hx hlo hhi ⊢
  rw [hx, ha] at h1 h2
  have hdb : (0 : ℚ) < d * 2 ^ b := by positivity
  have hA : (m : ℚ) ≤ x * 2 ^ (52 - e) + 1 / 2 := by
    have : (m : ℚ) * (d * 2 ^ b) ≤ (x * 2 ^ (52 - e) + 1 / 2) * (d * 2 ^ b) := by nlinarith
    exact le_of_mul_le_mul_right this hdb
  have hB : x * 2 ^ (52 - e) ≤ (m : ℚ) + 1 / 2 := by
    have : (x * 2 ^ (52 - e)) * (d * 2 ^ b) ≤ ((m : ℚ) + 1 / 2) * (d * 2 ^ b) := by nlinarith
    exact le_of_mul_le_mul_right this hdb
  have e52 : (2 : ℚ) ^ (e - 52) = (2 ^ (52 - e))⁻¹ := by
    rw [← zpow_neg]
    congr 1
    omega
  have e53 : (2 : ℚ) ^ (e - 53) = (2 ^ (52 - e))⁻¹ / 2 := by
    rw [← zpow_neg, show e - 53 = -(52 - e) - 1 from by omega, zpow_sub₀ (by norm_num), zpow_one]
  by_cases hov : 1023 < e ∨ (e = 1023 ∧ 2 ^ 53 ≤ m)
  · left
    rw [hnd, if_pos hov]
    refine ⟨rfl, ?_⟩
    rcases hov with hov | ⟨hov, hm⟩
    · have heE := hE3 hov
      subst heE
      have : (2 : ℚ) ^ (1024 : Int) ≤ 2 ^ e := zpow_le_zpow_right₀ (by norm_num) (by omega)
      have e1 : (2 : ℚ) ^ (1024 : Int) = 2 ^ 1024 := zpow_natCast 2 1024
      have : (0 : ℚ) ≤ 2 ^ 970 := by positivity
      linarith
    · subst hov
      have hm2 : ((2 : ℚ) ^ 53) ≤ m := by exact_mod_cast hm
      have e1 : (2 : ℚ) ^ ((52 : Int) - 1023) = (2 ^ 971)⁻¹ := by
        rw [show (52 : Int) - 1023 = -(971 : Nat) from by norm_num, zpow_neg, zpow_natCast]
      rw [e1] at hB
      have hp : (0 : ℚ) < 2 ^ 971 := by positivity
      have h3 : (2 ^ 53 - 1 / 2 : ℚ) ≤ x * (2 ^ 971)⁻¹ := by linarith
      have h4 : (2 ^ 53 - 1 / 2 : ℚ) * 2 ^ 971 ≤ x := by
        have := mul_le_mul_of_nonneg_right h3 hp.le
        rwa [mul_assoc, inv_mul_cancel₀ hp.ne', mul_one] at this
      have e2 : (2 ^ 53 - 1 / 2 : ℚ) * 2 ^ 971 = 2 ^ 1024 - 2 ^ 970 := by
        rw [show (1024 : Nat) = 53 + 971 from rfl, show (971 : Nat) = 970 + 1 from rfl, pow_add,
          pow_succ]
        ring
      linarith
  · right
    have he : e ≤ 1023 := by
      by_contra hc
      exact hov (Or.inl (by omega))
    have hv : mkRat ((m * 2 ^ b : Nat) : Int) (2 ^ a) = (m : ℚ) * 2 ^ (e - 52) := by
      rw [Rat.mkRat_eq_div, e52, hs]
      push_cast
      field_simp
    have hm : m ≤ 2 ^ 53 := by
      have h5 : x < 2 ^ (e + 1) := lt_of_lt_of_le hhi (zpow_le_zpow_right₀ (by norm_num) (by omega))
      have h6 : x * 2 ^ (52 - e) < 2 ^ (53 : Int) := by
        have := mul_lt_mul_of_pos_right h5 ht
        rwa [← zpow_add₀ (by norm_num), show e + 1 + (52 - e) = 53 from by omega] at this
      have e1 : (2 : ℚ) ^ (53 : Int) = 2 ^ 53 := by norm_cast
      rw [e1] at h6
      have h7 : (2 * m : ℚ) < 2 * 2 ^ 53 + 1 := by linarith
      have h8 : 2 * m < 2 * 2 ^ 53 + 1 := by exact_mod_cast h7
      omega
    have hm0 : e = -1022 ∨ 2 ^ 52 ≤ m := by
      rcases hE4 with h | h
      · exact Or.inl h
      · right
        subst h
        have h6 : (2 : ℚ) ^ (52 : Int) ≤ x * 2 ^ (52 - e) := by
          have := mul_le_mul_of_nonneg_right hlo ht.le
          rwa [← zpow_add₀ (by norm_num), show e + (52 - e) = 52 from by omega] at this
        have e1 : (2 : ℚ) ^ (52 : Int) = 2 ^ 52 := by norm_cast
        rw [e1] at h6
        have h7 : (2 * 2 ^ 52 : ℚ) < 2 * m + 2 := by linarith
        have h8 : 2 * 2 ^ 52 < 2 * m + 2 := by exact_mod_cast h7
        omega
    refine ⟨m, e, hE2, he, hm0, hm, fun h => hov (Or.inr h), ?_, ?_⟩
    · rw [hnd, if_neg hov, hv]
    · rw [e52, e53]
      have hk : (m : ℚ) * (2 ^ (52 - e))⁻¹ - x =
          ((m : ℚ) - x * 2 ^ (52 - e)) * (2 ^ (52 - e))⁻¹ := by
        field_simp
        ring
      rw [hk, abs_mul, abs_of_pos (inv_pos.2 ht)]
      have : |(m : ℚ) - x * 2 ^ (52 - e)| ≤ 1 / 2 := by
        rw [abs_le]
        constructor <;> linarith
      have hi : (0 : ℚ) ≤ (2 ^ (52 - e))⁻¹ := (inv_pos.2 ht).le
      calc |(m : ℚ) - x * 2 ^ (52 - e)| * (2 ^ (52 - e))⁻¹
          ≤ 1 / 2 * (2 ^ (52 - e))⁻¹ := mul_le_mul_of_nonneg_right this hi
        _ = (2 ^ (52 - e))⁻¹ / 2 := by ring

/-- Sample values of `nearest_double`: one tenth, 3.14, and the ties `2^53 + 1`
and `2^53 + 3`, which go to the even significand. -/
theorem nearest_double_samples :
    nearest_double 1 10 = .fin (mkRat 3602879701896397 36028797018963968) ∧
      nearest_double 314 100 = .fin (mkRat 7070651414971679 2251799813685248) ∧
      nearest_double 9007199254740993 1 = .fin 9007199254740992 ∧
      nearest_double 9007199254740995 1 = .fin 9007199254740996 ∧
      nearest_double 1000000000 1 = .fin 1000000000 := by
  decide

theorem round_micro_le (q : ℚ) (h0 : 0 ≤ q) (h1 : q ≤ 1000000000) :
    round_micro q ≤ 1000000000000000 := by
  have hden : 0 < q.den := q.den_pos
  have hdq : (0 : ℚ) < q.den := by exact_mod_cast hden
  have hnum : ((q.num.natAbs : Int)) = q.num := Int.natAbs_of_nonneg (Rat.num_nonneg.2 h0)
  have hq : q = (q.num.natAbs : ℚ) / (q.den : ℚ) := by
    have h := (Rat.num_div_den q).symm
    rw [← hnum, Int.cast_natCast] at h
    exact h
  have e : round_micro q = div_round_even (q.num.natAbs * 1000000) q.den := rfl
  have herr := (div_round_even_err (q.num.natAbs * 1000000) q.den hden).1
  rw [← e] at herr
  have h2 : (q.num.natAbs : ℚ) ≤ 1000000000 * q.den := by
    rw [hq, div_le_iff₀ hdq] at h1
    exact h1
  have h3 : q.num.natAbs ≤ 1000000000 * q.den := by exact_mod_cast h2
  by_contra hc
  have h4 : (1000000000000000 + 1) * q.den ≤ round_micro q * q.den :=
    Nat.mul_le_mul_right _ (by omega)
  rw [Nat.add_mul, Nat.one_mul] at h4
  omega

/-- In the range of the data model, the areas that `%lf` reads back from what
`%lf` wrote are exactly the `double`s nearest to a decimal number with at most
six digits after the decimal point. -/
theorem lf_round_fixed_iff (q : ℚ) (h0 : 0 ≤ q) (h1 : q ≤ 1000000000) :
    lf_round (.fin q) = .fin q ↔
      ∃ k : Nat, k ≤ 1000000000000000 ∧ Double.fin q = nearest_double k 1000000 := by
  constructor
  · intro h
    refine ⟨round_micro q, round_micro_le q h0 h1, ?_⟩
    simp only [lf_round, if_neg (not_lt.2 h0)] at h
    exact h.symm
  · rintro ⟨k, hk, h⟩
    rw [h]
    exact lf_round_nearest_double k hk

theorem reload_eq_self (r : record) (hn : name_ok r.region_name = true)
    (hl : r.region_name.length ≤ REGION_NAME_MAX - 1)
    (ha : lf_round r.region_area = r.region_area) :
    reload r = r := by
  cases r with
  | mk name area population =>
    simp only at ha
    simp only [reload, name_ok_no_nul name hn, ha]
    simp only at hl
    rw [List.take_of_length_le hl]

theorem length_dropWhile_le (p : Nat → Bool) (l : List Nat) :
    (l.dropWhile p).length ≤ l.length :=
  (List.dropWhile_sublist p).length_le

theorem scan_decimal_length (input rest : List Nat) (v : Double)
    (h : scan_decimal input = some (v, rest)) : rest.length ≤ input.length := by
  have h0 := length_dropWhile_le isdigit input
  unfold scan_decimal at h
  simp only at h
  split at h
  · rename_i rest1 heq
    have h1 := length_dropWhile_le isdigit rest1
    rw [heq] at h0
    simp only [List.length_cons] at h0
    split at h
    · exact absurd h (by simp)
    · simp only [Option.some.injEq, Prod.mk.injEq] at h
      rw [← h.2]
      omega
  · split at h
    · exact absurd h (by simp)
    · simp only [Option.some.injEq, Prod.mk.injEq] at h
      rw [← h.2]
      exact h0

theorem scan_lf_unsigned_length (input rest : List Nat) (v : Double)
    (h : scan_lf_unsigned input = some (v, rest)) : rest.length ≤ input.length := by
  unfold scan_lf_unsigned at h
  split at h
  · simp only [Option.some.injEq, Prod.mk.injEq] at h
    rw [← h.2]
    simp only [List.length_cons]
    omega
  · simp only [Option.some.injEq, Prod.mk.injEq] at h
    rw [← h.2]
    simp only [List.length_cons]
    omega
  · exact scan_decimal_length input rest v h

theorem scan_lf_length (input rest : List Nat) (v : Double)
    (h : scan_lf input = some (v, rest)) : rest.length ≤ input.length := by
  unfold scan_lf at h
  split at h
  · rename_i tl
    cases hd : scan_lf_unsigned tl with
    | none => rw [hd] at h; exact absurd h (by simp)
    | some r =>
      rw [hd] at h
      simp only [Option.map_some', Option.some.injEq, Prod.mk.injEq] at h
      rw [← h.2]
      have := scan_lf_unsigned_length tl r.2 r.1 hd
      simp only [List.length_cons]
      omega
  · rename_i tl
    have := scan_lf_unsigned_length tl rest v h
    simp only [List.length_cons]
    omega
  · exact scan_lf_unsigned_length input rest v h

theorem scan_i_unsigned_length (input rest : List Nat) (v : Nat)
    (h : scan_i_unsigned input = some (v, rest)) : rest.length ≤ input.length := by
  unfold scan_i_unsigned at h
  simp only at h
  split at h
  · exact absurd h (by simp)
  · simp only [Option.some.injEq, Prod.mk.injEq] at h
    rw [← h.2]
    exact length_dropWhile_le isdigit input

theorem scan_i_length (input rest : List Nat) (v : Int)
    (h : scan_i input = some (v, rest)) : rest.length ≤ input.length := by
  unfold scan_i at h
  split at h
  · rename_i tl
    cases hd : scan_i_unsigned tl with
    | none => rw [hd] at h; exact absurd h (by simp)
    | some r =>
      rw [hd] at h
      simp only [Option.map_some', Option.some.injEq, Prod.mk.injEq] at h
      rw [← h.2]
      have := scan_i_unsigned_length tl r.2 r.1 hd
      simp only [List.length_cons]
      omega
  · rename_i tl
    cases hd : scan_i_unsigned tl with
    | none => rw [hd] at h; exact absurd h (by simp)
    | some r =>
      rw [hd] at h
      simp only [Option.map_some', Option.some.injEq, Prod.mk.injEq] at h
      rw [← h.2]
      have := scan_i_unsigned_length tl r.2 r.1 hd
      simp only [List.length_cons]
      omega
  · cases hd : scan_i_unsigned input with
    | none => rw [hd] at h; exact absurd h (by simp)
    | some r =>
      rw [hd] at h
      simp only [Option.map_some', Option.some.injEq, Prod.mk.injEq] at h
      rw [← h.2]
      exact scan_i_unsigned_length input r.2 r.1 hd

theorem scan_s_length (input name rest : List Nat) (h : scan_s input = some (name, rest)) :
    rest.length < input.length := by
  have h0 := length_dropWhile_le isspace input
  unfold scan_s at h
  split at h
  · exact absurd h (by simp)
  · rename_i c tl heq
    simp only [Option.some.injEq, Prod.mk.injEq] at h
    have hc : isspace c = false := by
      have := List.head_dropWhile_not isspace input (by rw [heq]; simp)
      simpa [heq] using this
    have hd : (c :: tl).dropWhile (fun b => !isspace b) = tl.dropWhile (fun b => !isspace b) := by
      simp [List.dropWhile, hc]
    have h1 := length_dropWhile_le (fun b => !isspace b) tl
    rw [heq] at h0
    simp only [List.length_cons] at h0
    rw [← h.2, hd]
    omega

theorem fscanf_record_length (input rest : List Nat) (vars v : record)
    (h : fscanf_record input vars = some (v, rest)) : rest.length < input.length := by
  unfold fscanf_record at h
  cases hs : scan_s input with
  | none => rw [hs] at h; exact absurd h (by simp)
  | some r1 =>
    obtain ⟨name, rest1⟩ := r1
    have l1 := scan_s_length input name rest1 hs
    have d1 := length_dropWhile_le isspace rest1
    rw [hs] at h
    simp only at h
    cases hl : scan_lf (rest1.dropWhile isspace) with
    | none =>
      rw [hl] at h
      simp only [Option.some.injEq, Prod.mk.injEq] at h
      rw [← h.2]
      omega
    | some r2 =>
      obtain ⟨area, rest2⟩ := r2
      have l2 := scan_lf_length _ rest2 area hl
      have d2 := length_dropWhile_le isspace rest2
      rw [hl] at h
      simp only at h
      cases hi : scan_i (rest2.dropWhile isspace) with
      | none =>
        rw [hi] at h
        simp only [Option.some.injEq, Prod.mk.injEq] at h
        rw [← h.2]
        omega
      | some r3 =>
        obtain ⟨population, rest3⟩ := r3
        have l3 := scan_i_length _ rest3 population hi
        rw [hi] at h
        simp only [Option.some.injEq, Prod.mk.injEq] at h
        rw [← h.2]
        omega

theorem get_records_loop_succ (fuel : Nat) (input : List Nat) (vars : record)
    (h : input.length ≤ fuel) :
    get_records_loop (fuel + 1) input vars = get_records_loop fuel input vars := by
  induction fuel generalizing input vars with
  | zero =>
    have : input = [] := List.length_eq_zero.1 (by omega)
    subst this
    rfl
  | succ fuel ih =>
    rw [get_records_loop, get_records_loop]
    cases hf : fscanf_record input vars with
    | none => rfl
    | some r =>
      obtain ⟨v, rest⟩ := r
      have := fscanf_record_length input rest vars v hf
      simp only
      rw [ih rest v (by omega)]

theorem get_records_loop_fuel (fuel : Nat) (input : List Nat) (vars : record)
    (h : input.length ≤ fuel) :
    get_records_loop fuel input vars = get_records_loop input.length input vars := by
  induction fuel with
  | zero =>
    have : input.length = 0 := by omega
    rw [this]
  | succ fuel ih =>
    by_cases he : input.length = fuel + 1
    · rw [he]
    · rw [get_records_loop_succ fuel input vars (by omega), ih (by omega)]

theorem print_nat_no_newline (n : Nat) : 10 ∉ print_nat n := by
  intro h
  have := List.all_eq_true.1 (print_nat_all n) 10 h
  exact absurd this (by decide)

theorem print_lf_no_newline (a : Double) : 10 ∉ print_lf a := by
  cases a with
  | nan => decide
  | ninf => decide
  | pinf => decide
  | fin q =>
    intro h
    simp only [print_lf, List.mem_append, List.mem_cons] at h
    rcases h with (h | h) | h | h
    · split at h <;> simp at h
    · exact print_nat_no_newline _ h
    · exact absurd h (by decide)
    · have := List.all_eq_true.1 (print_frac6_all _) 10 h
      exact absurd this (by decide)

theorem print_i_no_newline (p : Int) : 10 ∉ print_i p := by
  intro h
  unfold print_i at h
  split at h
  · simp only [List.mem_cons] at h
    rcases h with h | h
    · exact absurd h (by decide)
    · exact print_nat_no_newline _ h
  · exact print_nat_no_newline _ h

theorem record_line_count_newline (r : record) (hname : name_ok (cstr r.region_name) = true) :
    (record_line r).count 10 = 1 := by
  obtain ⟨_, _, _, _, hall⟩ := name_ok_cons _ hname
  have h1 : 10 ∉ cstr r.region_name := by
    intro h
    have := List.all_eq_true.1 hall 10 h
    exact absurd this (by decide)
  simp only [record_line, List.count_append, List.count_cons, List.count_nil,
    List.count_eq_zero_of_not_mem h1, List.count_eq_zero_of_not_mem (print_lf_no_newline _),
    List.count_eq_zero_of_not_mem (print_i_no_newline _)]
  simp

theorem render_count_newline (S : List record)
    (hS : ∀ r ∈ S, name_ok (cstr r.region_name) = true) : (render S).count 10 = S.length := by
  induction S with
  | nil => rfl
  | cons r S ih =>
    have e : render (r :: S) = record_line r ++ render S := by
      simp [render, List.flatMap_cons]
    rw [e, List.count_append, record_line_count_newline r (hS r (List.mem_cons_self _ _)),
      ih (fun x hx => hS x (List.mem_cons_of_mem _ hx)), List.length_cons]
    omega

/-! ## Stored text: the claims -/

/-- C18, as stated, fails: the record `("A", 2^-24, 7)`, whose area is a
`double` in range, is written as `A 0.000000 7` and loaded with area 0; and the
record with the empty name, written as ` 1.000000 5`, is loaded as
`("1.000000", 5.0, 0)`. -/
theorem round_trip_fails :
    name_ok tiny.region_name = true ∧
      nearest_double 1 16777216 = tiny.region_area ∧
      Double.lt tiny.region_area (.fin 0) = false ∧
      Double.lt (.fin 1000000000) tiny.region_area = false ∧
      get_records_arr (read_file
        (write_records (fopen_w sample_fs temp_filepath) temp_filepath [tiny])
        ⟨temp_filepath, 3⟩) = [⟨[65], .fin 0, 7⟩] ∧
      get_records_arr (read_file
        (write_records (fopen_w sample_fs temp_filepath) temp_filepath [tiny])
        ⟨temp_filepath, 3⟩) ≠ [tiny] ∧
      get_records_arr (read_file
        (write_records (fopen_w sample_fs temp_filepath) temp_filepath [nameless])
        ⟨temp_filepath, 3⟩) = [⟨[49, 46, 48, 48, 48, 48, 48, 48], .fin 5, 0⟩] := by
  decide

/-- C18, amended: for every sequence of records whose names are not empty, at
most `REGION_NAME_MAX - 1` bytes long and free of white space and NUL, and
whose areas are the `double`s nearest to the decimal numbers from 0 to 10^9
with at most six digits after the decimal point (the numbers `k / 10^6` with
`k ≤ 10^15`), writing the records in order with `write_record` to an emptied
file and loading that file with `get_records_arr` yields the same sequence. -/
theorem round_trip (fs : FileSystem) (path : List Nat) (fd : Nat) (S : List record)
    (hS : ∀ r ∈ S, name_ok r.region_name = true ∧
      r.region_name.length ≤ REGION_NAME_MAX - 1 ∧
      ∃ k : Nat, k ≤ 1000000000000000 ∧ r.region_area = nearest_double k 1000000) :
    get_records_arr (read_file (write_records (fopen_w fs path) path S) ⟨path, fd⟩) = S := by
  have hc : read_file (write_records (fopen_w fs path) path S) ⟨path, fd⟩ = render S := by
    simp [read_file, write_records_fopen_w]
  have hn : ∀ r ∈ S, name_ok (cstr r.region_name) = true := by
    intro r hr
    rw [name_ok_no_nul _ (hS r hr).1]
    exact (hS r hr).1
  rw [hc, get_records_arr_render S hn]
  conv_rhs => rw [← List.map_id S]
  apply List.map_congr_left
  intro r hr
  obtain ⟨h1, h2, k, hk, ha⟩ := hS r hr
  exact reload_eq_self r h1 h2 (by rw [ha]; exact lf_round_nearest_double k hk)

/-- C18 amended, at a concrete input: Alpha (area 10), Beta and Delta (area 2)
and the records whose areas are the `double`s nearest to 0.1 and to 3.14,
written to `temp.txt`, are loaded back unchanged. -/
theorem round_trip_witness :
    (∀ r ∈ [alpha, beta, delta, tenth, pi_ish], name_ok r.region_name = true ∧
      r.region_name.length ≤ REGION_NAME_MAX - 1 ∧
      ∃ k : Nat, k ≤ 1000000000000000 ∧ r.region_area = nearest_double k 1000000) ∧
      get_records_arr (read_file
        (write_records (fopen_w sample_fs temp_filepath) temp_filepath
          [alpha, beta, delta, tenth, pi_ish])
        ⟨temp_filepath, 3⟩) = [alpha, beta, delta, tenth, pi_ish] :=
  have h : ∀ r ∈ [alpha, beta, delta, tenth, pi_ish], name_ok r.region_name = true ∧
      r.region_name.length ≤ REGION_NAME_MAX - 1 ∧
      ∃ k : Nat, k ≤ 1000000000000000 ∧ r.region_area = nearest_double k 1000000 := by
    intro r hr
    simp only [List.mem_cons, List.mem_singleton, List.not_mem_nil, or_false] at hr
    rcases hr with rfl | rfl | rfl | rfl | rfl
    · exact ⟨by decide, by decide, 10000000, by decide, by decide⟩
    · exact ⟨by decide, by decide, 2000000, by decide, by decide⟩
    · exact ⟨by decide, by decide, 2000000, by decide, by decide⟩
    · exact ⟨by decide, by decide, 100000, by decide, by decide⟩
    · exact ⟨by decide, by decide, 3140000, by decide, by decide⟩
  ⟨h, round_trip sample_fs temp_filepath 3 [alpha, beta, delta, tenth, pi_ish] h⟩

/-- C20, as stated, fails: the content `abc` followed by a newline has no
well-formed line, yet `get_records_arr` returns one record, `("abc", 0.0, 0)`:
the loop appends a record whenever `fscanf` returns anything but `EOF`. -/
theorem malformed_line_is_loaded :
    well_formed_lines [97, 98, 99, 10] = 0 ∧
      get_records_arr [97, 98, 99, 10] = [⟨[97, 98, 99], .fin 0, 0⟩] ∧
      (get_records_arr [97, 98, 99, 10]).length = 1 := by
  decide

/-- C20, amended: for a content made of the lines `write_record` writes for
records whose names are not empty and free of white space, the sequence
`get_records_arr` returns has one record per line (the content has as many
newline bytes as records were written). -/
theorem get_records_arr_length (S : List record)
    (hS : ∀ r ∈ S, name_ok (cstr r.region_name) = true) :
    (get_records_arr (render S)).length = (render S).count 10 ∧
      (render S).count 10 = S.length := by
  rw [get_records_arr_render S hS, render_count_newline S hS, List.length_map]
  exact ⟨rfl, rfl⟩

/-- C20 amended, at a concrete input: the three lines of Alpha, Beta, Delta
give three records. -/
theorem get_records_arr_length_witness :
    (∀ r ∈ [alpha, beta, delta], name_ok (cstr r.region_name) = true) ∧
      well_formed_lines (render [alpha, beta, delta]) = 3 ∧
      (get_records_arr (render [alpha, beta, delta])).length =
        (render [alpha, beta, delta]).count 10 :=
  ⟨by decide, by decide, (get_records_arr_length [alpha, beta, delta] (by decide)).1⟩

/-! ## Empty collections and ascending insertion: the claims -/

/-- C22: on an open file whose loaded collection has no record, each of
`delete_record`, `edit_record`, `order_records` and `insert_record` only prints
the empty-file error: it opens no temporary file, renames nothing, returns the
stream it was given and leaves every file as it was. -/
theorem empty_collection_failure (fs : FileSystem) (file : FILE)
    (working_file_name : List Nat) (choice : Option Nat)
    (order_choice : Option (sort_option × order_option)) (input_data : record)
    (temp_ok rename_ok : Bool) (reopen : Option Nat)
    (h : (get_records_arr (read_file fs file)).length = 0) :
    ((delete_record fs (some file) working_file_name choice temp_ok rename_ok
          reopen).trace = [.message .empty_file] ∧
        (delete_record fs (some file) working_file_name choice temp_ok rename_ok
          reopen).file = some file ∧
        (delete_record fs (some file) working_file_name choice temp_ok rename_ok
          reopen).fs = fs) ∧
      ((edit_record fs (some file) working_file_name choice input_data temp_ok rename_ok
          reopen).trace = [.message .empty_file] ∧
        (edit_record fs (some file) working_file_name choice input_data temp_ok rename_ok
          reopen).file = some file ∧
        (edit_record fs (some file) working_file_name choice input_data temp_ok rename_ok
          reopen).fs = fs) ∧
      ((order_records fs (some file) working_file_name order_choice temp_ok rename_ok
          reopen).trace = [.message .empty_file] ∧
        (order_records fs (some file) working_file_name order_choice temp_ok rename_ok
          reopen).file = some file ∧
        (order_records fs (some file) working_file_name order_choice temp_ok rename_ok
          reopen).fs = fs) ∧
      ((insert_record fs (some file) working_file_name input_data temp_ok rename_ok
          reopen).trace = [.message .empty_file] ∧
        (insert_record fs (some file) working_file_name input_data temp_ok rename_ok
          reopen).file = some file ∧
        (insert_record fs (some file) working_file_name input_data temp_ok rename_ok
          reopen).fs = fs) := by
  refine ⟨?_, ?_, ?_, ?_⟩
  · simp [delete_record, h]
  · simp [edit_record, h]
  · simp [order_records, h]
  · simp [insert_record, h]

/-- C22, at a concrete input: `data.txt` is empty; `delete_record` on it only
prints the empty-file error. -/
theorem empty_collection_failure_witness :
    (get_records_arr (read_file empty_fs ⟨data_txt_path, 3⟩)).length = 0 ∧
      (delete_record empty_fs (some ⟨data_txt_path, 3⟩) data_txt (some 0) true true
        (some 4)).trace = [.message .empty_file] :=
  ⟨by decide,
    (empty_collection_failure empty_fs ⟨data_txt_path, 3⟩ data_txt (some 0) none alpha true
      true (some 4) (by decide)).1.1⟩

theorem chain_insert_ascending (S : List record) (C : record) (key : sort_option)
    (h : List.Chain' (fun x y => compare_records x y key ASCENDING_ORDER ≤ 0) S) :
    List.Chain' (fun x y => compare_records x y key ASCENDING_ORDER ≤ 0)
        (S.take (find_insert_position S C key ASCENDING_ORDER) ++
          C :: S.drop (find_insert_position S C key ASCENDING_ORDER)) ∧
      ∀ d rest, S = d :: rest →
        ((S.take (find_insert_position S C key ASCENDING_ORDER) ++
            C :: S.drop (find_insert_position S C key ASCENDING_ORDER)).head? = some d ∨
          ((S.take (find_insert_position S C key ASCENDING_ORDER) ++
            C :: S.drop (find_insert_position S C key ASCENDING_ORDER)).head? = some C ∧
            0 < compare_records d C key ASCENDING_ORDER)) := by
  induction S with
  | nil =>
    refine ⟨by simp [find_insert_position], ?_⟩
    intro d rest hd
    exact absurd hd (by simp)
  | cons d rest ih =>
    have hrest : List.Chain' (fun x y => compare_records x y key ASCENDING_ORDER ≤ 0) rest :=
      (List.chain'_cons'.1 h).2
    by_cases hgt : 0 < compare_records d C key ASCENDING_ORDER
    · have hp : find_insert_position (d :: rest) C key ASCENDING_ORDER = 0 := by
        simp [find_insert_position, hgt]
      rw [hp]
      simp only [List.take_zero, List.nil_append, List.drop_zero]
      refine ⟨List.Chain'.cons' h ?_, ?_⟩
      · intro x hx
        simp only [List.head?_cons, Option.mem_def, Option.some.injEq] at hx
        subst hx
        rw [compare_records_swap d C]
        omega
      · intro d' rest' hd
        injection hd with h1 h2
        subst h1
        exact Or.inr ⟨rfl, hgt⟩
    · have hp : find_insert_position (d :: rest) C key ASCENDING_ORDER =
          find_insert_position rest C key ASCENDING_ORDER + 1 := by
        simp [find_insert_position, hgt]
      rw [hp]
      simp only [List.take_succ_cons, List.drop_succ_cons, List.cons_append]
      obtain ⟨ih1, ih2⟩ := ih hrest
      refine ⟨List.Chain'.cons' ih1 ?_, ?_⟩
      · intro x hx
        simp only [Option.mem_def] at hx
        cases rest with
        | nil =>
          simp [find_insert_position] at hx
          subst hx
          omega
        | cons e rest' =>
          rcases ih2 e rest' rfl with h1 | ⟨h1, _⟩
          · rw [h1] at hx
            injection hx with hx
            subst hx
            exact (List.chain'_cons.1 h).1
          · rw [h1] at hx
            injection hx with hx
            subst hx
            omega
      · intro d' rest' hd
        injection hd with h1 h2
        subst h1
        exact Or.inl rfl

/-- C23: for every key, every sequence `S` on which `is_sorted` holds in
ascending direction and every candidate `C`, the sequence with `C` inserted at
index `find_insert_position S C key ascending` (the sequence `insert_record`
writes) is again ordered: `is_sorted` holds on it. -/
theorem insert_ascending_sorted (S : List record) (C : record) (key : sort_option)
    (h : is_sorted S key ASCENDING_ORDER = true) :
    is_sorted (S.take (find_insert_position S C key ASCENDING_ORDER) ++
        C :: S.drop (find_insert_position S C key ASCENDING_ORDER)) key ASCENDING_ORDER =
        true ∧
      insert_loop S 0 (find_insert_position S C key ASCENDING_ORDER) C =
        S.take (find_insert_position S C key ASCENDING_ORDER) ++
          C :: S.drop (find_insert_position S C key ASCENDING_ORDER) := by
  refine ⟨?_, ?_⟩
  · rw [is_sorted_iff_chain]
    exact (chain_insert_ascending S C key ((is_sorted_iff_chain _ _ _).1 h)).1
  · have := insert_loop_eq S 0 (find_insert_position S C key ASCENDING_ORDER) C
      (find_insert_position_le S C key ASCENDING_ORDER)
    rwa [Nat.zero_add] at this

/-- C23, at a concrete input: `[Beta, Alpha]` is ordered by area ascending
(2.0, 10.0); `Delta` (area 2.0) goes to index 1 and `[Beta, Delta, Alpha]` is
ordered. -/
theorem insert_ascending_sorted_witness :
    is_sorted [beta, alpha] AREA_SORT ASCENDING_ORDER = true ∧
      find_insert_position [beta, alpha] delta AREA_SORT ASCENDING_ORDER = 1 ∧
      is_sorted ([beta, alpha].take
          (find_insert_position [beta, alpha] delta AREA_SORT ASCENDING_ORDER) ++
        delta :: [beta, alpha].drop
          (find_insert_position [beta, alpha] delta AREA_SORT ASCENDING_ORDER))
        AREA_SORT ASCENDING_ORDER = true :=
  ⟨by decide, by decide,
    (insert_ascending_sorted [beta, alpha] delta AREA_SORT (by decide)).1⟩

/-! ## Keyboard input: the claims -/

theorem string_input_loop_line (n : Nat) (line rest acc : List Nat) (hl : 10 ∉ line) :
    string_input_loop n (line ++ 10 :: rest) acc =
      if line.length ≤ n then (true, acc ++ line, rest)
      else (false, acc ++ line.take (n + 1), (line ++ 10 :: rest).drop (n + 1)) := by
  induction n generalizing line acc with
  | zero =>
    cases line with
    | nil => simp [string_input_loop]
    | cons c tl =>
      have hc : ¬ c = 10 := fun e => hl (by simp [e])
      simp [string_input_loop, hc]
  | succ n ih =>
    cases line with
    | nil => simp [string_input_loop]
    | cons c tl =>
      have hc : ¬ c = 10 := fun e => hl (by simp [e])
      have htl : 10 ∉ tl := fun h => hl (List.mem_cons_of_mem _ h)
      simp only [string_input_loop, List.cons_append, List.headD_cons, hc, if_false,
        List.tail_cons, ih tl (acc ++ [c]) htl, List.length_cons, Nat.add_le_add_iff_right,
        List.take_succ_cons, List.drop_succ_cons, List.append_assoc, List.singleton_append,
        List.nil_append]

/-- C21, as stated, fails: `string_input` accepts the line `a b`, which has a
space in the middle, as a region name, and `insert_record` passes a record with
that name to `write_record`. -/
theorem string_input_accepts_space :
    32 ∈ a_b ∧
      string_input (a_b ++ [10]) REGION_NAME_MAX = (true, a_b, []) ∧
      (⟨a_b, .fin 1, 5⟩ : record) ∈
        written (insert_record sample_fs (some ⟨data_txt_path, 3⟩) data_txt
          ⟨(string_input (a_b ++ [10]) REGION_NAME_MAX).2.1, .fin 1, 5⟩ true true
          (some 4)).trace := by
  decide

/-- C21, amended: `string_input` enforces the length rule only: on an input
line (the bytes before the first newline) it returns true, with the line in the
buffer, when the line is shorter than `max_len`, and false otherwise, whether
or not the line contains a space. -/
theorem string_input_length_rule (line rest : List Nat) (max_len : Nat)
    (hm : 1 ≤ max_len) (hl : 10 ∉ line) :
    (string_input (line ++ 10 :: rest) max_len).1 = decide (line.length < max_len) ∧
      (line.length < max_len →
        string_input (line ++ 10 :: rest) max_len = (true, line, rest)) := by
  have h := string_input_loop_line (max_len - 1) line rest [] hl
  simp only [List.nil_append] at h
  unfold string_input
  rw [h]
  by_cases hlen : line.length ≤ max_len - 1
  · have : line.length < max_len := by omega
    simp [hlen, this]
  · have : ¬ line.length < max_len := by omega
    simp [hlen, this]

/-- C21 amended, at a concrete input: the line `a b` is shorter than
`REGION_NAME_MAX` and is accepted. -/
theorem string_input_length_rule_witness :
    1 ≤ REGION_NAME_MAX ∧ 10 ∉ a_b ∧ a_b.length < REGION_NAME_MAX ∧
      string_input (a_b ++ 10 :: []) REGION_NAME_MAX = (true, a_b, []) :=
  ⟨by decide, by decide, by decide,
    (string_input_length_rule a_b [] REGION_NAME_MAX (by decide) (by decide)).2 (by decide)⟩

theorem create_filepath_exact_iff (filename : List Nat) :
    create_filepath filename = working_folder ++ 47 :: (cstr filename ++ dot_txt) ↔
      (cstr filename).length ≤ 7 := by
  unfold create_filepath snprintf
  rw [List.take_eq_self_iff]
  simp only [filepath_size, FILENAME_SIZE, working_folder, dot_txt, List.length_append,
    List.length_cons, List.length_nil]
  omega

/-- C24, evaluated at the failing input: the filename `abcdefgh` is accepted by
`string_input(filename, FILENAME_SIZE)` and by `is_valid_filename`, but the path
`create_file` builds is `./files/abcdefgh.tx`, cut by `snprintf` to 19 bytes,
and not `./files/abcdefgh.txt`. -/
theorem create_filepath_truncated :
    string_input (abcdefgh ++ [10]) FILENAME_SIZE = (true, abcdefgh, []) ∧
      is_valid_filename abcdefgh = true ∧
      filepath_size = 20 ∧
      create_filepath abcdefgh =
        [46, 47, 102, 105, 108, 101, 115, 47, 97, 98, 99, 100, 101, 102, 103, 104,
          46, 116, 120] ∧
      create_filepath abcdefgh ≠ working_folder ++ 47 :: (abcdefgh ++ dot_txt) := by
  decide

theorem navigate_list_range (p size : Int) (key : Nat) (is_exit is_chosen : Bool)
    (h0 : 0 ≤ p) (h1 : p < size) :
    0 ≤ (navigate_list p size key is_exit is_chosen).1 ∧
      (navigate_list p size key is_exit is_chosen).1 < size ∧
      ((navigate_list p size key is_exit is_chosen).1 - p).natAbs ≤ 1 := by
  unfold navigate_list
  split
  · split <;> simp <;> omega
  · split
    · split <;> simp <;> omega
    · split
      · simp; omega
      · split <;> simp <;> omega

theorem select_row_range (keys : List Nat) (size p i : Int) (h0 : 0 ≤ p) (h1 : p < size)
    (h : select_row keys size p = .chosen i) : 0 ≤ i ∧ i < size := by
  induction keys generalizing p with
  | nil => simp [select_row] at h
  | cons key keys ih =>
    have hr := navigate_list_range p size key false false h0 h1
    simp only [select_row] at h
    split at h
    · simp at h
    · split at h
      · injection h with h
        rw [← h]
        exact ⟨hr.1, hr.2.1⟩
      · exact ih _ hr.1 hr.2.1 h

theorem select_order_range (keys : List Nat) (sort order s o : Int)
    (h0 : 0 ≤ order) (h1 : order < 2)
    (h : select_order keys sort order = .chosen (s, o)) : s = sort ∧ 0 ≤ o ∧ o < 2 := by
  induction keys generalizing order with
  | nil => simp [select_order] at h
  | cons key keys ih =>
    have hr := navigate_list_range order 2 key false false h0 h1
    simp only [select_order, order_option.toNat, Nat.cast_ofNat] at h
    split at h
    · simp at h
    · split at h
      · injection h with h
        injection h with hs ho
        rw [← ho]
        exact ⟨hs.symm, hr.1, hr.2.1⟩
      · exact ih _ hr.1 hr.2.1 h

theorem select_sort_range (keys : List Nat) (sort order s o : Int)
    (hs0 : 0 ≤ sort) (hs1 : sort < 3) (ho0 : 0 ≤ order) (ho1 : order < 2)
    (h : select_sort keys sort order = .chosen (s, o)) :
    (0 ≤ s ∧ s < 3) ∧ 0 ≤ o ∧ o < 2 := by
  induction keys generalizing sort with
  | nil => simp [select_sort] at h
  | cons key keys ih =>
    have hr := navigate_list_range sort 3 key false false hs0 hs1
    simp only [select_sort, sort_option.toNat, Nat.cast_ofNat] at h
    split at h
    · simp at h
    · split at h
      · have := select_order_range keys _ order s o ho0 ho1 h
        rw [this.1]
        exact ⟨⟨hr.1, hr.2.1⟩, this.2⟩
      · exact ih _ hr.1 hr.2.1 h

theorem sort_option_cast_valid (s : Int) (h0 : 0 ≤ s) (h1 : s < 3) :
    sort_option.cast s.toNat ≠ NUMBER_OF_SORTS := by
  have h : s.toNat = 0 ∨ s.toNat = 1 ∨ s.toNat = 2 := by omega
  rcases h with h | h | h <;> rw [h] <;> decide

theorem order_option_cast_valid (o : Int) (h0 : 0 ≤ o) (h1 : o < 2) :
    order_option.cast o.toNat ≠ NUMBER_OF_ORDERS := by
  have h : o.toNat = 0 ∨ o.toNat = 1 := by omega
  rcases h with h | h <;> rw [h] <;> decide

/-- C25: for every key, every size of at least 1 and every position `p` with
`0 ≤ p < size`, the position `navigate_list` returns is again in `[0, size)`
and differs from `p` by at most 1. Hence a row chosen by the selection loop of
`delete_record` and `edit_record` is a valid index, and the sort and order
options chosen in `order_records` are `NAME_SORT`, `AREA_SORT` or
`POPULATION_SORT` and `DESCENDING_ORDER` or `ASCENDING_ORDER`, never a counting
sentinel: `compare_records` does not reach its invalid-option branch. -/
theorem navigate_list_in_range (key : Nat) (keys : List Nat) (size p : Int)
    (is_exit is_chosen : Bool) (hs : 1 ≤ size) (h0 : 0 ≤ p) (h1 : p < size) :
    (0 ≤ (navigate_list p size key is_exit is_chosen).1 ∧
        (navigate_list p size key is_exit is_chosen).1 < size ∧
        ((navigate_list p size key is_exit is_chosen).1 - p).natAbs ≤ 1) ∧
      (∀ i, select_row keys size p = .chosen i → 0 ≤ i ∧ i < size) ∧
      (∀ s o, select_sort keys NAME_SORT.toNat DESCENDING_ORDER.toNat = .chosen (s, o) →
        sort_option.cast s.toNat ≠ NUMBER_OF_SORTS ∧
          order_option.cast o.toNat ≠ NUMBER_OF_ORDERS) := by
  have _ := hs
  refine ⟨navigate_list_range p size key is_exit is_chosen h0 h1,
    fun i h => select_row_range keys size p i h0 h1 h, fun s o h => ?_⟩
  have := select_sort_range keys _ _ s o (by decide) (by decide) (by decide) (by decide) h
  exact ⟨sort_option_cast_valid s this.1.1 this.1.2,
    order_option_cast_valid o this.2.1 this.2.2⟩

/-- C25, at a concrete input: on three rows, from row 0, the keys `s`, enter
choose row 1; in `order_records` the keys `s`, enter, `w`, enter choose area in
descending order. -/
theorem navigate_list_in_range_witness :
    (1 : Int) ≤ 3 ∧ (0 : Int) ≤ 0 ∧ (0 : Int) < 3 ∧
      (navigate_list 0 3 115 false false).1 = 1 ∧
      select_row [115, 10, 119, 10] 3 0 = .chosen 1 ∧
      select_sort [115, 10, 119, 10] NAME_SORT.toNat DESCENDING_ORDER.toNat =
        .chosen (1, 0) ∧
      (0 ≤ (navigate_list 0 3 115 false false).1 ∧
        (navigate_list 0 3 115 false false).1 < 3 ∧
        ((navigate_list 0 3 115 false false).1 - 0).natAbs ≤ 1) :=
  ⟨by decide, by decide, by decide, by decide, by decide, by decide,
    (navigate_list_in_range 115 [115, 10, 119, 10] 3 0 false false (by decide) (by decide)
      (by decide)).1⟩

end Records
